import Mathlib

set_option maxRecDepth 8000

/-!
Verification of the IEEE754 encoder/decoder (src/ieee754/IEEE754.py) against its
natural-language specification.

The embedding models:
  * Python `decimal.Decimal` finite values as a coefficient/exponent pair `Dec`
    (sign, coefficient, power-of-ten exponent), with context precision 256 and
    ROUND_HALF_EVEN, as set by `getcontext().prec = 256` in `__init__`;
  * the scaling loop `scale_up_to_integer` with explicit fuel (the source loop
    is unbounded and runs until the value is an exact integer);
  * bit strings as `List Char` of '0'/'1' characters, mirroring the f-string
    rendering and `int(s, 2)` parsing used by the source;
  * the decoder's arithmetic `sign * (1 + mantissa * 2**-M) * 2**exponent`,
    which in Python is evaluated in 64-bit binary floating point (the `2**-M`
    subexpression is a float), as rounding to 53 significant bits
    (round-half-even); this model is faithful on the binary64 normal range,
    which every theorem below restricts itself to.

All recursive functions are fuel-structural so that concrete instances can be
evaluated by the kernel (`decide`).
-/

/-- Number of decimal digits of a natural number (1 for 0), fuel-structural.
Models the significant-digit count of a `Decimal` coefficient. -/

def numDigitsAux : ℕ → ℕ → ℕ
  | 0, _ => 1
  | f + 1, n => if n < 10 then 1 else numDigitsAux f (n / 10) + 1

/-- Number of decimal digits of a coefficient. -/

def numDigits (n : ℕ) : ℕ := numDigitsAux n n

/-- Round n / d to the nearest integer, ties to even (ROUND_HALF_EVEN). -/

def rheNat (n d : ℕ) : ℕ :=
  let q := n / d
  let r := n % d
  if 2 * r < d then q
  else if d < 2 * r then q + 1
  else if q % 2 = 0 then q else q + 1

/-- Fuel-structural floor of log base 2. -/

def log2Aux : ℕ → ℕ → ℕ
  | 0, _ => 0
  | f + 1, n => if n < 2 then 0 else log2Aux f (n / 2) + 1

/-- Floor of log base 2 of a natural number (0 for 0 and 1). -/

def nlog2 (n : ℕ) : ℕ := log2Aux n n

/-- The value of one bit character. -/

def bitVal (c : Char) : ℕ := if c = '1' then 1 else 0

/-- Parse a list of bit characters as a binary natural number: `int(s, 2)`
for a nonnegative bit string. -/

def parseBin (s : List Char) : ℕ := s.foldl (fun a c => 2 * a + bitVal c) 0

/-- Parse a possibly-negative binary rendering, `int(s, 2)` in general. -/

def parseBinInt (s : List Char) : ℤ :=
  match s with
  | '-' :: t => -(parseBin t : ℤ)
  | _ => (parseBin s : ℤ)

/-- Fuel-structural binary rendering, most significant bit first, no leading
zeros; empty for 0. -/

def bitsAux : ℕ → ℕ → List Char
  | 0, _ => []
  | f + 1, n =>
    if n = 0 then []
    else bitsAux f (n / 2) ++ [if n % 2 = 1 then '1' else '0']

/-- Binary rendering of a natural number, `f"{n:b}"` for n ≥ 1 (the encoder
only renders the scaled integer, which is at least 1 on the normal path). -/

def to_binary (n : ℕ) : List Char := bitsAux n n

/-!
## The Decimal model and the Binary Scaler

Python's `decimal.Decimal` finite numbers are (sign, coefficient, exponent)
triples with value `(-1)^sign * coefficient * 10^exponent`.  The encoder sets
`getcontext().prec = 256`, so every context arithmetic operation rounds its
result to at most 256 significant digits with ROUND_HALF_EVEN.  The
`Decimal(str)` constructor itself is exact.
-/

/-- A finite Python `Decimal` value: `(-1)^neg * c * 10^e`. -/

structure Dec where
  neg : Bool
  c : ℕ
  e : ℤ
  deriving DecidableEq, Repr

/-- Exact rational value of a `Dec`. -/

def decVal (d : Dec) : ℚ := (cond d.neg (-1) 1 : ℚ) * (d.c : ℚ) * (10 : ℚ) ^ d.e

/-- Whether a `Dec`'s value is an exact integer; this is the loop condition
`number != int(number)` of `scale_up_to_integer` (comparison of a Decimal
with its truncation is exact, so it tests integrality). -/

def decIsInt (d : Dec) : Bool :=
  if 0 ≤ d.e then true else decide (d.c % 10 ^ (-d.e).toNat = 0)

/-- Context multiplication by 2 (`number *= base` with `base = 2`): the exact
product, rounded to 256 significant digits half-even when it is wider.  If the
half-even rounding carries into a new digit the coefficient is one digit too
wide and an extra exact division by ten renormalizes it. -/

def decMul2 (d : Dec) : Dec :=
  let c2 := 2 * d.c
  let dg := numDigits c2
  if dg ≤ 256 then ⟨d.neg, c2, d.e⟩
  else
    let t := dg - 256
    let r := rheNat c2 (10 ^ t)
    if numDigits r ≤ 256 then ⟨d.neg, r, d.e + t⟩
    else ⟨d.neg, r / 10, d.e + t + 1⟩

/-- Truncation `int(number)`, used on exit of the scaling loop (where the value
is an exact integer, so the division is exact). -/

def decToInt (d : Dec) : ℤ :=
  (cond d.neg (-1) 1) *
    (if 0 ≤ d.e then (d.c : ℤ) * 10 ^ d.e.toNat else ((d.c / 10 ^ (-d.e).toNat : ℕ) : ℤ))

/-- The Binary Scaler loop of `scale_up_to_integer`: repeatedly multiply by 2
until the value is an exact integer, counting the doublings.  The source loop
is unbounded; `fuel` only models partiality of the while loop, and `none`
means the loop did not finish within `fuel` iterations. -/

def scale_up_to_integer : ℕ → Dec → ℕ → Option (ℕ × Dec)
  | 0, d, s => if decIsInt d then some (s, d) else none
  | f + 1, d, s => if decIsInt d then some (s, d) else scale_up_to_integer f (decMul2 d) (s + 1)

/-- The `unable_to_scale` output flag, assigned after the loop finishes:
`self.output["unable_to_scale"] = scale > 100`. -/

def unableToScaleFlag (scale : ℕ) : Bool := decide (100 < scale)

/-- True when every doubling performed by the scaling loop stays within the
256-significant-digit context precision, so no rounding occurs. -/

def scaleExact : ℕ → Dec → Bool
  | 0, d => decIsInt d
  | f + 1, d =>
    if decIsInt d then true
    else decide (numDigits (2 * d.c) ≤ 256) && scaleExact f (decMul2 d)

/-!
## Field Assembler

`find_exponent` renders `len(binary) - 1 + bias - scale` with the f-string
`f"{v:0{E}b}"`: zero-padded on the left to total width E, longer when the
value needs more than E binary digits, and rendered with a leading '-' (the
sign counted inside the width) when negative.  `find_mantissa` drops the
leading 1, right-pads with '0' to width M (`f"{s:<0{M}}"`), and when the
result is still longer than M keeps the first M - 1 digits and forces the
final bit to '1'.
-/

/-- Python binary rendering of a nonnegative value, `f"{n:b}"`. -/

def pyBin (n : ℕ) : List Char := if n = 0 then ['0'] else to_binary n

/-- Zero-pad a rendering on the left to total width w. -/

def zeroPad (w : ℕ) (s : List Char) : List Char :=
  List.replicate (w - s.length) '0' ++ s

/-- Python `f"{v:0{w}b}"` for an integer value. -/

def intBinPad (v : ℤ) (w : ℕ) : List Char :=
  if v < 0 then '-' :: zeroPad (w - 1) (pyBin v.natAbs) else zeroPad w (pyBin v.toNat)

/-- The bias `2**(exponent_bits - 1) - 1` (the source computes this with
integer arithmetic for exponent_bits ≥ 1). -/

def biasOf (E : ℕ) : ℕ := 2 ^ (E - 1) - 1

/-- `find_exponent`: the biased exponent field. -/

def find_exponent (binLength scale : ℕ) (bias : ℕ) (E : ℕ) : List Char :=
  intBinPad ((binLength : ℤ) - 1 + bias - scale) E

/-- `find_mantissa`: drop the implicit leading 1, right-pad with zeros to M;
if still longer than M, keep the first M - 1 digits and force a trailing '1'. -/

def find_mantissa (binary : List Char) (M : ℕ) : List Char :=
  let m := binary.drop 1 ++ List.replicate (M - (binary.length - 1)) '0'
  if M < m.length then m.take (M - 1) ++ ['1'] else m

/-- A bit layout: exponent and mantissa field widths. -/

structure Layout where
  exponent : ℕ
  mantissa : ℕ
  deriving DecidableEq, Repr

/-- The fields assembled by the normal (non-edge-case) path of `__init__`. -/

structure NormalEnc where
  sign : Char
  expF : List Char
  mantF : List Char
  scale : ℕ
  intVal : ℕ
  deriving DecidableEq, Repr

/-- The Decimal comparison `self.number < 0` used by `find_sign`, expressed
on the representation: negative sign flag and a nonzero coefficient. -/

def decNegative (d : Dec) : Bool := d.neg && decide (d.c ≠ 0)

/-- `find_sign`: "1" for a negative number, else "0". -/

def find_sign (d : Dec) : Char := if decNegative d then '1' else '0'

/-- The normal encoding path of `__init__` (after `validate_number` returned a
finite nonzero number): take the sign, strip it (`copy_abs`), scale to an
integer, render in binary, and extract the exponent and mantissa fields. -/

def encodeNormal (fuel : ℕ) (L : Layout) (d : Dec) : Option NormalEnc :=
  match scale_up_to_integer fuel ⟨false, d.c, d.e⟩ 0 with
  | none => none
  | some (s, d') =>
    let n := (decToInt d').toNat
    let binary := to_binary n
    some { sign := find_sign d
         , expF := find_exponent binary.length s (biasOf L.exponent) L.exponent
         , mantF := find_mantissa binary L.mantissa
         , scale := s
         , intVal := n }

/-- Convenience accessor for a concrete encoding (defaulting to a dummy when
the scaling loop did not finish); used only to state concrete instances. -/

def encOf (fuel : ℕ) (L : Layout) (d : Dec) : NormalEnc :=
  (encodeNormal fuel L d).getD ⟨'0', [], [], 0, 0⟩

/-!
## Disassembler (`back_to_decimal_from_bits`)

The source computes
`Decimal(sign * (1 + mantissa * 2**-self.__mantissa) * 2**exponent)` where
`sign`, `mantissa` are Python ints and `2**-self.__mantissa` is a Python
float: the whole product is evaluated in 64-bit binary floating point and only
then converted (exactly) to Decimal.  We model each float operation as exact
rational arithmetic followed by rounding to 53 significant bits, round half to
even.  The model has no exponent limit, so it is faithful exactly on the
binary64 normal range (magnitudes in [2^-1022, 2^1024), and `2**exponent`
convertible to float); the theorems below restrict claims to that range.

The error field `Decimal(self.original_number - number).copy_abs()` subtracts
two Decimals under the active context (`getcontext().prec = 256`,
ROUND_HALF_EVEN): the exact difference is computed with coefficient at the
ideal exponent `min(e1, e2)` and rounded half-even to 256 significant digits
when that coefficient is wider.  `decSubCtx` below models this subtraction;
`decOfFloat` models the exact conversion `Decimal(float)`.
-/

/-- Round a nonnegative rational to an integer, half to even. -/

def rheInt (q : ℚ) : ℤ :=
  let n := q.num
  let d := (q.den : ℤ)
  let fq := n / d
  let r := n % d
  if 2 * r < d then fq
  else if d < 2 * r then fq + 1
  else if fq % 2 = 0 then fq else fq + 1

/-- Floor of log base 2 of a positive rational. -/

def floorLog2 (q : ℚ) : ℤ :=
  if 1 ≤ q then (nlog2 (q.num.toNat / q.den) : ℤ)
  else -((nlog2 ((q.den - 1) / q.num.toNat) : ℤ) + 1)

/-- Round a positive rational to 53 significant bits, half to even. -/

def flPos (q : ℚ) : ℚ :=
  let k : ℤ := 52 - floorLog2 q
  (rheInt (q * 2 ^ k) : ℚ) * 2 ^ (-k)

/-- Binary64 rounding of a rational (no exponent limit: faithful to Python
float arithmetic on the normal range). -/

def fl (q : ℚ) : ℚ :=
  if q = 0 then 0 else if q < 0 then -flPos (-q) else flPos q

/-- The decoder arithmetic as Python evaluates it:
`(sign * (1 + mantissa * a)) * p` with `a = 2**-M` and `p = 2**exponent`,
every intermediate a 64-bit float. -/

def pyEvalReconstruct (sgn : ℤ) (mant M : ℕ) (ex : ℤ) : ℚ :=
  let a := fl ((2 : ℚ) ^ (-(M : ℤ)))
  let b := fl (fl (mant : ℚ) * a)
  let c := fl (1 + b)
  fl (fl ((sgn : ℚ) * c) * (2 : ℚ) ^ ex)

/-- Modelled from the spec: the reconstruction formula
`signed_value * (1 + mantissa_int * 2^-mantissa_bits) * 2^unbiased_exponent`
evaluated in exact arbitrary-precision arithmetic, for comparison with the
code's float evaluation. -/

def exactReconstruct (sgn : ℤ) (mant M : ℕ) (ex : ℤ) : ℚ :=
  (sgn : ℚ) * (1 + (mant : ℚ) * (2 : ℚ) ^ (-(M : ℤ))) * (2 : ℚ) ^ ex

/-- The sign factor `(-1) ** int(sign_char)`. -/

def signFactor (c : Char) : ℤ := if c = '1' then -1 else 1

/-- `Decimal(float v)`: the exact conversion of a Python float to Decimal.
`Decimal.from_float` writes `|v| = n / 2^j` in lowest terms (every float is a
dyadic rational, so the reduced denominator is a power of two) and returns the
Decimal with coefficient `n * 5^j` and exponent `-j`.  Here `j` is recovered
from the reduced denominator as `nlog2 v.den`; the definition is meaningful
for dyadic `v`, which every value fed to it below is. -/

def decOfFloat (v : ℚ) : Dec :=
  if v = 0 then ⟨false, 0, 0⟩
  else
    let j := nlog2 v.den
    ⟨decide (v < 0), v.num.natAbs * 5 ^ j, -(j : ℤ)⟩

/-- The exact coefficient of `a - b` at the ideal exponent `min a.e b.e`: the
working coefficient of Decimal context subtraction, before rounding. -/

def decSubCoeff (a b : Dec) : ℤ :=
  (cond a.neg (-1) 1) * (a.c : ℤ) * 10 ^ (a.e - min a.e b.e).toNat -
    (cond b.neg (-1) 1) * (b.c : ℤ) * 10 ^ (b.e - min a.e b.e).toNat

/-- Decimal context subtraction `a - b` at 256 significant digits: the exact
difference at the ideal exponent `min a.e b.e`, rounded half-even when its
coefficient is wider than 256 digits (with the same carry renormalization by
an exact division by ten as in `decMul2`). -/

def decSubCtx (a b : Dec) : Dec :=
  if numDigits (decSubCoeff a b).natAbs ≤ 256 then
    ⟨decide (decSubCoeff a b < 0), (decSubCoeff a b).natAbs, min a.e b.e⟩
  else if numDigits (rheNat (decSubCoeff a b).natAbs
      (10 ^ (numDigits (decSubCoeff a b).natAbs - 256))) ≤ 256 then
    ⟨decide (decSubCoeff a b < 0),
     rheNat (decSubCoeff a b).natAbs
       (10 ^ (numDigits (decSubCoeff a b).natAbs - 256)),
     min a.e b.e + (numDigits (decSubCoeff a b).natAbs - 256)⟩
  else
    ⟨decide (decSubCoeff a b < 0),
     rheNat (decSubCoeff a b).natAbs
       (10 ^ (numDigits (decSubCoeff a b).natAbs - 256)) / 10,
     min a.e b.e + (numDigits (decSubCoeff a b).natAbs - 256) + 1⟩

/-- `back_to_decimal_from_bits`: parse the three fields back, evaluate the
reconstruction (in Python float arithmetic), and report
`(converted_number, error)`.  The conversion `Decimal(number)` of the float
result is exact (`decOfFloat`); the error field
`Decimal(original_number - number).copy_abs()` subtracts the two Decimals
under the 256-significant-digit context, so it is the half-even 256-digit
rounding of the exact difference (`decSubCtx`), then made nonnegative. -/

def back_to_decimal_from_bits (L : Layout) (orig : Dec) (enc : NormalEnc) : ℚ × ℚ :=
  let sgn := signFactor enc.sign
  let ex : ℤ := parseBinInt enc.expF - biasOf L.exponent
  let mant : ℕ := parseBin enc.mantF
  let v := pyEvalReconstruct sgn mant L.mantissa ex
  (v, |decVal (decSubCtx orig (decOfFloat v))|)

/-!
## Validation (`validate_number`) and the Format Resolver

`calculate_denormalized_range` is computed by Python in binary floating point
(`2 ** -(bias - 1)` is a float).  For the half, single and double presets all
three intermediate quantities are exactly representable binary64 values, so
the exact rational formula below coincides with the code there; the theorems
about it use the half-precision layout.  (For the quadruple and octuple
presets the Python floats underflow to 0.0 and the checks are vacuous, a
further divergence not needed by the claims.)
-/

/-- `calculate_denormalized_range`: `(smallest_denormalized, largest_denormalized)`. -/

def calculate_denormalized_range (E M : ℕ) : ℚ × ℚ :=
  let bias : ℤ := 2 ^ (E - 1) - 1
  let smallest_normalized : ℚ := (2 : ℚ) ^ (-(bias - 1))
  let smallest_denormalized : ℚ := smallest_normalized * (2 : ℚ) ^ (-(M : ℤ))
  let largest_denormalized : ℚ := smallest_normalized - (2 : ℚ) ^ (-(bias + M - 1))
  (smallest_denormalized, largest_denormalized)

/-- Result of the magnitude checks on a finite nonzero number. -/

inductive NumCheck where
  | magnitudeTooSmall
  | exponentLost
  | ok
  deriving DecidableEq, Repr

/-- The two magnitude checks at the end of `validate_number` (source order:
first `|x| < smallest_denormalized` raises "we lost both exponent and
mantissa", then `|x| < largest_denormalized` raises "we lost exponent"). -/

def validate_finite (E M : ℕ) (q : ℚ) : NumCheck :=
  let r := calculate_denormalized_range E M
  if |q| < r.1 then .magnitudeTooSmall
  else if |q| < r.2 then .exponentLost
  else .ok

/-- Value class of `Decimal(text)` for the special tokens.  Modelled from the
Python decimal module: `Decimal("NaN")` (any capitalization, optional sign) is
a *quiet* NaN (`is_qnan()` is true, `is_snan()` false); only an explicit
`sNaN` literal is signaling. -/

inductive DecClass where
  | inf (neg : Bool)
  | snan
  | qnan
  | zero (neg : Bool)
  | finite
  deriving DecidableEq, Repr

/-- Lexical map from special input texts to their Decimal value class. -/

def decimalClassOf (t : String) : DecClass :=
  if t = "Infinity" ∨ t = "Inf" ∨ t = "+Infinity" then .inf false
  else if t = "-Infinity" ∨ t = "-Inf" then .inf true
  else if t = "sNaN" ∨ t = "-sNaN" then .snan
  else if t = "NaN" ∨ t = "-NaN" ∨ t = "nan" then .qnan
  else if t = "0" ∨ t = "0.0" ∨ t = "+0" then .zero false
  else if t = "-0" ∨ t = "-0.0" then .zero true
  else .finite

/-- Fixed bit fields produced for an edge case. -/

structure EdgeFields where
  sign : Char
  expF : List Char
  mantF : List Char
  deriving DecidableEq, Repr

/-- The edge-case branch cascade of `validate_number`, in source order:
infinities, then signaling NaN, then quiet NaN, then the generic-NaN catch-all
`if not number == number` — which compares the input *string* with itself and
is therefore never true (the branch with the all-ones mantissa is dead code) —
then zeros.  `none` means the number proceeds to the normal path. -/

def validate_edge_case (E M : ℕ) (t : String) : Option EdgeFields :=
  match decimalClassOf t with
  | .inf false => some ⟨'0', List.replicate E '1', List.replicate M '0'⟩
  | .inf true => some ⟨'1', List.replicate E '1', List.replicate M '0'⟩
  | .snan => some ⟨'0', List.replicate E '1', List.replicate (M - 1) '0' ++ ['1']⟩
  | .qnan => some ⟨'0', List.replicate E '1', '1' :: List.replicate (M - 1) '0'⟩
  | .zero false => some ⟨'0', List.replicate E '0', List.replicate M '0'⟩
  | .zero true => some ⟨'1', List.replicate E '0', List.replicate M '0'⟩
  | .finite =>
    if t ≠ t then some ⟨'0', List.replicate E '1', List.replicate M '1'⟩ else none

/-- The generic-NaN pattern the spec claims for input "NaN": sign 0, exponent
all ones, mantissa all ones. -/

def genericNaNFields (E M : ℕ) : EdgeFields :=
  ⟨'0', List.replicate E '1', List.replicate M '1'⟩

/-- The preset table `exponent_list = [5, 8, 11, 15, 19]`. -/

def exponentPresetList : List ℕ := [5, 8, 11, 15, 19]

/-- The preset table `mantissa_list = [10, 23, 52, 112, 236]`. -/

def mantissaPresetList : List ℕ := [10, 23, 52, 112, 236]

/-- Python list subscription `l[i]`: nonnegative indices below the length are
direct, indices in [-len, -1] wrap from the end, anything else raises
IndexError (modeled as `none`). -/

def pyListGet (l : List ℕ) (i : ℤ) : Option ℕ :=
  if 0 ≤ i ∧ i < (l.length : ℤ) then l.get? i.toNat
  else if -(l.length : ℤ) ≤ i ∧ i < 0 then l.get? ((l.length : ℤ) + i).toNat
  else none

/-- The Format Resolver of `__init__` with no forced exponent/mantissa:
`exponent_list[precision]` and `mantissa_list[precision]`. -/

def resolveLayout (precision : ℤ) : Option Layout :=
  match pyListGet exponentPresetList precision, pyListGet mantissaPresetList precision with
  | some E, some M => some ⟨E, M⟩
  | _, _ => none

/-!
## Claims C1, C2: the decoder
-/

/-- The quadruple-precision layout. -/

def quadLayout : Layout := ⟨15, 112⟩

/-- The input 1 + 2^-60, as the exact Decimal parsed from its 60-fractional-
digit text: coefficient (2^60 + 1)·5^60, exponent -60. -/

def quadInput : Dec := ⟨false, (2 ^ 60 + 1) * 5 ^ 60, -60⟩

/-!
## Theorems
-/

theorem log2Aux_eq (f : ℕ) : ∀ n : ℕ, n ≤ f → log2Aux f n = Nat.log 2 n := by
  induction f with
  | zero =>
    intro n hn
    interval_cases n
    simp [log2Aux]
  | succ f ih =>
    intro n hn
    by_cases h2 : n < 2
    · interval_cases n <;> simp [log2Aux]
    · push_neg at h2
      have hdiv : n / 2 < n := Nat.div_lt_self (by omega) (by omega)
      have hrec : log2Aux (f + 1) n = log2Aux f (n / 2) + 1 := by
        simp [log2Aux, Nat.not_lt.mpr h2]
      rw [hrec, ih (n / 2) (by omega)]
      have hlog : Nat.log 2 (n / 2) = Nat.log 2 n - 1 := Nat.log_div_base 2 n
      have hpos : 0 < Nat.log 2 n := Nat.log_pos (by omega) h2
      omega

theorem nlog2_eq (n : ℕ) : nlog2 n = Nat.log 2 n := log2Aux_eq n n le_rfl

theorem parseBin_from (s : List Char) :
    ∀ a : ℕ, s.foldl (fun a c => 2 * a + bitVal c) a = a * 2 ^ s.length + parseBin s := by
  induction s with
  | nil => intro a; simp [parseBin]
  | cons c t ih =>
    intro a
    show t.foldl (fun a c => 2 * a + bitVal c) (2 * a + bitVal c)
        = a * 2 ^ (c :: t).length + parseBin (c :: t)
    rw [ih (2 * a + bitVal c)]
    have hc : parseBin (c :: t) = bitVal c * 2 ^ t.length + parseBin t := by
      show t.foldl (fun a c => 2 * a + bitVal c) (2 * 0 + bitVal c)
          = bitVal c * 2 ^ t.length + parseBin t
      rw [ih (2 * 0 + bitVal c)]
      ring
    rw [hc]
    simp [List.length_cons]
    ring

theorem parseBin_append (a b : List Char) :
    parseBin (a ++ b) = parseBin a * 2 ^ b.length + parseBin b := by
  show (a ++ b).foldl (fun x c => 2 * x + bitVal c) 0 = _
  rw [List.foldl_append, parseBin_from b]
  rfl

theorem parseBin_lt (s : List Char) : parseBin s < 2 ^ s.length := by
  induction s with
  | nil => simp [parseBin]
  | cons c t ih =>
    have h : parseBin (c :: t) = bitVal c * 2 ^ t.length + parseBin t := by
      show t.foldl (fun a c => 2 * a + bitVal c) (2 * 0 + bitVal c) = _
      rw [parseBin_from t]
      ring
    have hb : bitVal c ≤ 1 := by unfold bitVal; split <;> omega
    rw [h]
    simp only [List.length_cons, pow_succ]
    nlinarith [ih]

theorem parseBin_replicate_zero (j : ℕ) : parseBin (List.replicate j '0') = 0 := by
  induction j with
  | zero => simp [parseBin]
  | succ k ih =>
    have : List.replicate (k + 1) '0' = List.replicate k '0' ++ ['0'] := by
      rw [List.replicate_succ' k '0']
    rw [this, parseBin_append, ih]
    simp [parseBin, bitVal]

theorem parseBin_pad_right (s : List Char) (j : ℕ) :
    parseBin (s ++ List.replicate j '0') = parseBin s * 2 ^ j := by
  rw [parseBin_append, parseBin_replicate_zero, List.length_replicate]
  omega

theorem parseBin_append_one (s : List Char) :
    parseBin (s ++ ['1']) = 2 * parseBin s + 1 := by
  rw [parseBin_append]
  simp [parseBin, bitVal]
  ring

theorem bitsAux_zero (f : ℕ) : bitsAux f 0 = [] := by
  cases f <;> simp [bitsAux]

theorem bitsAux_spec (f : ℕ) : ∀ n : ℕ, 1 ≤ n → n ≤ f →
    parseBin (bitsAux f n) = n ∧ (bitsAux f n).length = Nat.log 2 n + 1 := by
  induction f with
  | zero => intro n h1 h2; omega
  | succ f ih =>
    intro n h1 h2
    have hne : n ≠ 0 := by omega
    have hstep : bitsAux (f + 1) n = bitsAux f (n / 2) ++ [if n % 2 = 1 then '1' else '0'] := by
      simp [bitsAux, hne]
    by_cases h2n : n < 2
    · have hn1 : n = 1 := by omega
      subst hn1
      rw [hstep]
      have : (1 : ℕ) / 2 = 0 := by norm_num
      rw [this, bitsAux_zero]
      refine ⟨?_, ?_⟩
      · simp [parseBin, bitVal]
      · simp [Nat.log]
    · push_neg at h2n
      have hd1 : 1 ≤ n / 2 := by omega
      have hdlt : n / 2 < n := Nat.div_lt_self (by omega) (by omega)
      have hdf : n / 2 ≤ f := by omega
      obtain ⟨hp, hl⟩ := ih (n / 2) hd1 hdf
      rw [hstep]
      constructor
      · rw [parseBin_append, hp]
        have hbit : parseBin [if n % 2 = 1 then '1' else '0'] = n % 2 := by
          rcases Nat.mod_two_eq_zero_or_one n with h | h <;> simp [h, parseBin, bitVal]
        rw [hbit]
        simp only [List.length_singleton, pow_one]
        omega
      · rw [List.length_append, hl]
        have hlog : Nat.log 2 (n / 2) = Nat.log 2 n - 1 := Nat.log_div_base 2 n
        have hpos : 0 < Nat.log 2 n := Nat.log_pos (by omega) h2n
        simp only [List.length_singleton]
        omega

theorem to_binary_parse (n : ℕ) (h : 1 ≤ n) : parseBin (to_binary n) = n :=
  (bitsAux_spec n n h le_rfl).1

theorem to_binary_length (n : ℕ) (h : 1 ≤ n) :
    (to_binary n).length = Nat.log 2 n + 1 :=
  (bitsAux_spec n n h le_rfl).2

theorem to_binary_bounds (n : ℕ) (h : 1 ≤ n) :
    2 ^ ((to_binary n).length - 1) ≤ n ∧ n < 2 ^ (to_binary n).length := by
  rw [to_binary_length n h]
  constructor
  · simpa using Nat.pow_log_le_self 2 (by omega)
  · exact Nat.lt_pow_succ_log_self (by omega) n

/-!
## Supporting lemmas: digit counts, rendering and parsing
-/

theorem numDigitsAux_eq (f : ℕ) : ∀ n : ℕ, n ≤ f → numDigitsAux f n = Nat.log 10 n + 1 := by
  induction f with
  | zero =>
    intro n hn
    interval_cases n
    simp [numDigitsAux]
  | succ f ih =>
    intro n hn
    by_cases h10 : n < 10
    · have : Nat.log 10 n = 0 := Nat.log_eq_zero_iff.mpr (Or.inl h10)
      simp [numDigitsAux, h10, this]
    · push_neg at h10
      have hdiv : n / 10 < n := Nat.div_lt_self (by omega) (by omega)
      have hrec : numDigitsAux (f + 1) n = numDigitsAux f (n / 10) + 1 := by
        simp [numDigitsAux, Nat.not_lt.mpr h10]
      rw [hrec, ih (n / 10) (by omega)]
      have hlog : Nat.log 10 (n / 10) = Nat.log 10 n - 1 := Nat.log_div_base 10 n
      have hpos : 0 < Nat.log 10 n := Nat.log_pos (by omega) h10
      omega

theorem numDigits_eq (n : ℕ) : numDigits n = Nat.log 10 n + 1 :=
  numDigitsAux_eq n n le_rfl

theorem numDigits_lower (n : ℕ) (h : 1 ≤ n) : 10 ^ (numDigits n - 1) ≤ n := by
  rw [numDigits_eq]
  simpa using Nat.pow_log_le_self 10 (by omega)

/-- Characters produced by the binary rendering are only '0' and '1'. -/

theorem bitsAux_chars (f : ℕ) : ∀ n : ℕ, ∀ c ∈ bitsAux f n, c = '0' ∨ c = '1' := by
  induction f with
  | zero => intro n c hc; simp [bitsAux] at hc
  | succ f ih =>
    intro n c hc
    by_cases hn : n = 0
    · subst hn; simp [bitsAux] at hc
    · simp only [bitsAux, hn, if_false, List.mem_append, List.mem_singleton] at hc
      rcases hc with hc | hc
      · exact ih (n / 2) c hc
      · subst hc; split <;> simp

theorem pyBin_chars (n : ℕ) : ∀ c ∈ pyBin n, c = '0' ∨ c = '1' := by
  intro c hc
  unfold pyBin at hc
  split at hc
  · simp at hc; subst hc; left; rfl
  · exact bitsAux_chars n n c hc

theorem pyBin_ne_nil (n : ℕ) : pyBin n ≠ [] := by
  unfold pyBin
  split
  · simp
  · have h1 : 1 ≤ n := by omega
    have := to_binary_length n h1
    intro hcon
    rw [hcon] at this
    simp at this

theorem parseBin_zeroPad (w : ℕ) (s : List Char) : parseBin (zeroPad w s) = parseBin s := by
  unfold zeroPad
  rw [parseBin_append, parseBin_replicate_zero]
  omega

theorem parseBin_pyBin (n : ℕ) : parseBin (pyBin n) = n := by
  unfold pyBin
  split
  · simp [parseBin, bitVal]; omega
  · exact to_binary_parse n (by omega)

theorem parseBinInt_not_dash (c : Char) (t : List Char) (h : c ≠ '-') :
    parseBinInt (c :: t) = (parseBin (c :: t) : ℤ) := by
  unfold parseBinInt
  split
  · rename_i heq
    rw [List.cons.injEq] at heq
    exact absurd heq.1 h
  · rfl

theorem parseBinInt_nonneg_list (s : List Char) (h : ∀ c ∈ s, c = '0' ∨ c = '1') :
    parseBinInt s = (parseBin s : ℤ) := by
  cases s with
  | nil => rfl
  | cons c t =>
    refine parseBinInt_not_dash c t ?_
    have := h c (by simp)
    rcases this with h0 | h1 <;> subst_vars <;> decide

theorem zeroPad_chars (w : ℕ) (s : List Char) (h : ∀ c ∈ s, c = '0' ∨ c = '1') :
    ∀ c ∈ zeroPad w s, c = '0' ∨ c = '1' := by
  intro c hc
  unfold zeroPad at hc
  rw [List.mem_append] at hc
  rcases hc with hc | hc
  · left; exact List.eq_of_mem_replicate hc
  · exact h c hc

/-- Rendering then parsing an integer exponent field is the identity, whatever
the requested width (the f-string pads but never truncates, and `int(s, 2)`
accepts a leading minus sign). -/

theorem parse_render_id (v : ℤ) (w : ℕ) : parseBinInt (intBinPad v w) = v := by
  unfold intBinPad
  split
  · rename_i hv
    show parseBinInt ('-' :: zeroPad (w - 1) (pyBin v.natAbs)) = v
    have hd : parseBinInt ('-' :: zeroPad (w - 1) (pyBin v.natAbs))
        = -(parseBin (zeroPad (w - 1) (pyBin v.natAbs)) : ℤ) := rfl
    rw [hd, parseBin_zeroPad, parseBin_pyBin]
    omega
  · rename_i hv
    rw [parseBinInt_nonneg_list _ (zeroPad_chars _ _ (pyBin_chars _)),
      parseBin_zeroPad, parseBin_pyBin]
    omega

theorem zeroPad_length (w : ℕ) (s : List Char) :
    (zeroPad w s).length = max w s.length := by
  unfold zeroPad
  rw [List.length_append, List.length_replicate]
  omega

/-- Width of the rendered exponent field when the biased exponent value is a
nonnegative value fitting in w bits. -/

theorem intBinPad_length_of_fits (v : ℤ) (w : ℕ) (h0 : 0 ≤ v) (hw : 1 ≤ w)
    (hfit : v < 2 ^ w) : (intBinPad v w).length = w := by
  unfold intBinPad
  rw [if_neg (by omega)]
  rw [zeroPad_length]
  unfold pyBin
  split
  · simp; omega
  · rename_i hne
    have h1 : 1 ≤ v.toNat := by omega
    rw [to_binary_length _ h1]
    have hlt : v.toNat < 2 ^ w := by
      have : ((2 : ℤ) ^ w) = ((2 ^ w : ℕ) : ℤ) := by push_cast; ring
      omega
    have : Nat.log 2 v.toNat < w := (Nat.lt_pow_iff_log_lt (by omega) (by omega)).mp hlt
    omega

/-!
## Mantissa field characterization
-/

theorem parseBin_take (s : List Char) (i : ℕ) (h : i ≤ s.length) :
    parseBin (s.take i) = parseBin s / 2 ^ (s.length - i) := by
  have hlen : (s.drop i).length = s.length - i := by simp
  have hlt : parseBin (s.drop i) < 2 ^ (s.length - i) := by
    have := parseBin_lt (s.drop i)
    rwa [hlen] at this
  have hdecomp : parseBin s = 2 ^ (s.length - i) * parseBin (s.take i) + parseBin (s.drop i) := by
    conv_lhs => rw [← List.take_append_drop i s]
    rw [parseBin_append, hlen]
    ring
  rw [hdecomp, Nat.mul_add_div (Nat.pos_pow_of_pos _ (by omega)), Nat.div_eq_of_lt hlt]
  omega

theorem parseBin_drop_one (n : ℕ) (h : 1 ≤ n) :
    parseBin ((to_binary n).drop 1) = n - 2 ^ ((to_binary n).length - 1) := by
  set s := to_binary n with hs
  have hlen1 : 1 ≤ s.length := by
    rw [hs, to_binary_length n h]; omega
  have hlend : (s.drop 1).length = s.length - 1 := by simp
  have hdecomp : parseBin s = 2 ^ (s.length - 1) * parseBin (s.take 1) + parseBin (s.drop 1) := by
    conv_lhs => rw [← List.take_append_drop 1 s]
    rw [parseBin_append, hlend]
    ring
  have htake1 : parseBin (s.take 1) ≤ 1 := by
    have hl : (s.take 1).length ≤ 1 := by simp
    have := parseBin_lt (s.take 1)
    interval_cases hh : (s.take 1).length <;> omega
  have hlow : 2 ^ (s.length - 1) ≤ n := (to_binary_bounds n h).1
  have hup : parseBin (s.drop 1) < 2 ^ (s.length - 1) := by
    have := parseBin_lt (s.drop 1)
    rwa [hlend] at this
  have hparse : parseBin s = n := to_binary_parse n h
  interval_cases hb : parseBin (s.take 1) <;> omega

/-- The if-then-else normal form of `find_mantissa`. -/

theorem find_mantissa_eq (b : List Char) (M : ℕ) :
    find_mantissa b M =
      if M < (b.drop 1 ++ List.replicate (M - (b.length - 1)) '0').length
      then (b.drop 1 ++ List.replicate (M - (b.length - 1)) '0').take (M - 1) ++ ['1']
      else b.drop 1 ++ List.replicate (M - (b.length - 1)) '0' := rfl

/-- The mantissa field always has exactly `M` characters. -/

theorem find_mantissa_length (n M : ℕ) (hn : 1 ≤ n) (hM : 1 ≤ M) :
    (find_mantissa (to_binary n) M).length = M := by
  rw [find_mantissa_eq]
  have hlen1 : 1 ≤ (to_binary n).length := by
    rw [to_binary_length n hn]; omega
  set L := (to_binary n).length with hL
  have hm : ((to_binary n).drop 1 ++ List.replicate (M - (L - 1)) '0').length
      = max (L - 1) M := by
    rw [List.length_append, List.length_replicate, List.length_drop]
    omega
  split
  · rename_i hgt
    rw [hm] at hgt
    rw [List.length_append, List.length_take]
    rw [hm]
    simp only [List.length_singleton]
    omega
  · rename_i hle
    rw [hm] at hle
    rw [hm]
    omega

/-- Value of the mantissa field in the padding case (natural mantissa no
longer than M): drop the leading 1, multiply up by the padding zeros. -/

theorem find_mantissa_pad (n M : ℕ) (hn : 1 ≤ n)
    (hcase : (to_binary n).length - 1 ≤ M) :
    parseBin (find_mantissa (to_binary n) M)
      = (n - 2 ^ ((to_binary n).length - 1)) * 2 ^ (M - ((to_binary n).length - 1)) := by
  rw [find_mantissa_eq]
  have hlen1 : 1 ≤ (to_binary n).length := by
    rw [to_binary_length n hn]; omega
  set L := (to_binary n).length with hL
  have hm : ((to_binary n).drop 1 ++ List.replicate (M - (L - 1)) '0').length
      = max (L - 1) M := by
    rw [List.length_append, List.length_replicate, List.length_drop]
    omega
  rw [if_neg (by rw [hm]; omega)]
  rw [parseBin_pad_right, parseBin_drop_one n hn]

/-- Value of the mantissa field in the truncation case (natural mantissa
longer than M): the top M - 1 bits below the leading 1, then a forced 1. -/

theorem find_mantissa_trunc (n M : ℕ) (hn : 1 ≤ n) (hM : 1 ≤ M)
    (hcase : M < (to_binary n).length - 1) :
    parseBin (find_mantissa (to_binary n) M)
      = 2 * (n / 2 ^ ((to_binary n).length - M) - 2 ^ (M - 1)) + 1 := by
  rw [find_mantissa_eq]
  have hlen1 : 1 ≤ (to_binary n).length := by
    rw [to_binary_length n hn]; omega
  set L := (to_binary n).length with hL
  have hpad : M - (L - 1) = 0 := by omega
  rw [hpad]
  simp only [List.replicate_zero, List.append_nil]
  have hdlen : ((to_binary n).drop 1).length = L - 1 := by simp
  rw [if_pos (by rw [hdlen]; omega)]
  rw [parseBin_append_one]
  have htake : parseBin (((to_binary n).drop 1).take (M - 1))
      = parseBin ((to_binary n).drop 1) / 2 ^ (L - M) := by
    rw [parseBin_take _ _ (by rw [hdlen]; omega), hdlen]
    have : L - 1 - (M - 1) = L - M := by omega
    rw [this]
  rw [htake, parseBin_drop_one n hn]
  have hnlow : 2 ^ (L - 1) ≤ n := by
    have := (to_binary_bounds n hn).1
    rwa [← hL] at this
  have hsplit : (2 : ℕ) ^ (L - 1) = 2 ^ (L - M) * 2 ^ (M - 1) := by
    rw [← pow_add]
    congr 1
    omega
  have hdivsub : (n - 2 ^ (L - 1)) / 2 ^ (L - M)
      = n / 2 ^ (L - M) - 2 ^ (M - 1) := by
    rw [hsplit]
    exact Nat.sub_mul_div n (2 ^ (L - M)) (2 ^ (M - 1)) (by rw [← hsplit]; exact hnlow)
  rw [hdivsub]

/-!
## Lemmas about the Decimal model and the scaling loop
-/

theorem decMul2_neg (d : Dec) : (decMul2 d).neg = d.neg := by
  unfold decMul2
  dsimp only
  split
  · rfl
  · split <;> rfl

/-- A doubling that stays within the 256-digit precision is exact. -/

theorem decMul2_val_exact (d : Dec) (h : numDigits (2 * d.c) ≤ 256) :
    decVal (decMul2 d) = 2 * decVal d := by
  unfold decMul2
  dsimp only
  rw [if_pos h]
  unfold decVal
  dsimp only
  push_cast
  ring

/-- Doubling never maps a nonzero coefficient to zero (the rounded quotient
keeps at least 256 digits). -/

theorem decMul2_c_ne (d : Dec) (h : d.c ≠ 0) : (decMul2 d).c ≠ 0 := by
  unfold decMul2
  dsimp only
  split
  · dsimp only; omega
  · rename_i hdg
    push_neg at hdg
    have hc2 : 1 ≤ 2 * d.c := by omega
    have hlow : 10 ^ (numDigits (2 * d.c) - 1) ≤ 2 * d.c := numDigits_lower _ hc2
    have hq : 1 ≤ 2 * d.c / 10 ^ (numDigits (2 * d.c) - 256) := by
      rw [Nat.le_div_iff_mul_le (Nat.pos_pow_of_pos _ (by omega))]
      calc 1 * 10 ^ (numDigits (2 * d.c) - 256) ≤ 10 ^ (numDigits (2 * d.c) - 1) := by
            rw [one_mul]
            exact Nat.pow_le_pow_right (by omega) (by omega)
        _ ≤ 2 * d.c := hlow
    have hrhe : 2 * d.c / 10 ^ (numDigits (2 * d.c) - 256)
        ≤ rheNat (2 * d.c) (10 ^ (numDigits (2 * d.c) - 256)) := by
      unfold rheNat
      dsimp only
      split
      · exact le_rfl
      · split
        · omega
        · split <;> omega
    split
    · dsimp only; omega
    · rename_i hbig
      push_neg at hbig
      dsimp only
      have h257 : 257 ≤ numDigits (rheNat (2 * d.c) (10 ^ (numDigits (2 * d.c) - 256))) := hbig
      have hr1 : 1 ≤ rheNat (2 * d.c) (10 ^ (numDigits (2 * d.c) - 256)) := by omega
      have := numDigits_lower _ hr1
      have h10 : (10 : ℕ) ^ 256 ≤ rheNat (2 * d.c) (10 ^ (numDigits (2 * d.c) - 256)) := by
        calc (10 : ℕ) ^ 256 ≤ 10 ^ (numDigits (rheNat (2 * d.c) (10 ^ (numDigits (2 * d.c) - 256))) - 1) :=
              Nat.pow_le_pow_right (by omega) (by omega)
          _ ≤ _ := this
      have : 10 ≤ rheNat (2 * d.c) (10 ^ (numDigits (2 * d.c) - 256)) := by
        calc (10 : ℕ) = 10 ^ 1 := (pow_one 10).symm
          _ ≤ 10 ^ 256 := Nat.pow_le_pow_right (by omega) (by omega)
          _ ≤ _ := h10
      have hdiv : 1 ≤ rheNat (2 * d.c) (10 ^ (numDigits (2 * d.c) - 256)) / 10 :=
        (Nat.one_le_div_iff (by omega)).mpr this
      omega

/-- The scaling loop result does not depend on the fuel, provided it finishes:
the source loop has no iteration cap. -/

theorem scale_up_fuel_mono (fuel : ℕ) : ∀ fuel' d s r,
    scale_up_to_integer fuel d s = some r → fuel ≤ fuel' →
    scale_up_to_integer fuel' d s = some r := by
  induction fuel with
  | zero =>
    intro fuel' d s r hrun hle
    unfold scale_up_to_integer at hrun
    split at hrun
    · rename_i hint
      cases fuel' with
      | zero => unfold scale_up_to_integer; rw [if_pos hint]; exact hrun
      | succ f' => unfold scale_up_to_integer; rw [if_pos hint]; exact hrun
    · exact absurd hrun (by simp)
  | succ f ih =>
    intro fuel' d s r hrun hle
    unfold scale_up_to_integer at hrun
    split at hrun
    · rename_i hint
      cases fuel' with
      | zero => omega
      | succ f' => unfold scale_up_to_integer; rw [if_pos hint]; exact hrun
    · rename_i hint
      cases fuel' with
      | zero => omega
      | succ f' =>
        unfold scale_up_to_integer
        rw [if_neg hint]
        exact ih f' (decMul2 d) (s + 1) r hrun (by omega)

/-- Structural facts preserved by the scaling loop: the final value is an
integer, the sign flag and coefficient-nonzeroness are preserved, and the
scale counter only grows. -/

theorem scale_up_shape (fuel : ℕ) : ∀ d s0 s d',
    scale_up_to_integer fuel d s0 = some (s, d') →
    decIsInt d' = true ∧ d'.neg = d.neg ∧ (d.c ≠ 0 → d'.c ≠ 0) ∧ s0 ≤ s := by
  induction fuel with
  | zero =>
    intro d s0 s d' hrun
    unfold scale_up_to_integer at hrun
    split at hrun
    · rename_i hint
      cases hrun
      exact ⟨hint, rfl, fun h => h, le_rfl⟩
    · exact absurd hrun (by simp)
  | succ f ih =>
    intro d s0 s d' hrun
    unfold scale_up_to_integer at hrun
    split at hrun
    · rename_i hint
      cases hrun
      exact ⟨hint, rfl, fun h => h, le_rfl⟩
    · rename_i hint
      obtain ⟨h1, h2, h3, h4⟩ := ih (decMul2 d) (s0 + 1) s d' hrun
      refine ⟨h1, by rw [h2, decMul2_neg], fun hc => h3 (decMul2_c_ne d hc), by omega⟩

/-- Exact-run invariant: when every doubling stays inside the working
precision, the loop multiplies the value by exactly 2^(number of doublings). -/

theorem scale_up_exact_val (fuel : ℕ) : ∀ d s0 s d',
    scale_up_to_integer fuel d s0 = some (s, d') →
    scaleExact fuel d = true →
    decVal d' = decVal d * 2 ^ (s - s0) := by
  induction fuel with
  | zero =>
    intro d s0 s d' hrun hex
    unfold scale_up_to_integer at hrun
    split at hrun
    · cases hrun; simp
    · exact absurd hrun (by simp)
  | succ f ih =>
    intro d s0 s d' hrun hex
    unfold scale_up_to_integer at hrun
    unfold scaleExact at hex
    split at hrun
    · rename_i hint
      cases hrun; simp
    · rename_i hint
      rw [if_neg hint, Bool.and_eq_true, decide_eq_true_eq] at hex
      obtain ⟨hdg, hex'⟩ := hex
      have hs : s0 + 1 ≤ s := (scale_up_shape f _ _ _ _ hrun).2.2.2
      have := ih (decMul2 d) (s0 + 1) s d' hrun hex'
      rw [this, decMul2_val_exact d hdg]
      have hpow : (2 : ℚ) ^ (s - s0) = 2 * 2 ^ (s - (s0 + 1)) := by
        rw [← pow_succ']
        congr 1
        omega
      rw [hpow]
      ring

/-- On an exact integer value, truncation `int(number)` returns the value. -/

theorem decToInt_eq (d : Dec) (h : decIsInt d = true) :
    ((decToInt d : ℤ) : ℚ) = decVal d := by
  unfold decToInt decVal
  by_cases he : 0 ≤ d.e
  · rw [if_pos he]
    have h10 : (10 : ℚ) ^ d.e = (10 : ℚ) ^ (d.e.toNat : ℤ) := by
      rw [Int.toNat_of_nonneg he]
    rw [h10, zpow_natCast]
    cases d.neg <;> simp only [Bool.cond_false, Bool.cond_true] <;> push_cast <;> ring
  · rw [if_neg he]
    unfold decIsInt at h
    rw [if_neg he, decide_eq_true_eq] at h
    have hdvd : 10 ^ (-d.e).toNat ∣ d.c := Nat.dvd_of_mod_eq_zero h
    obtain ⟨k, hk⟩ := hdvd
    have hdiv : d.c / 10 ^ (-d.e).toNat = k := by
      rw [hk]
      exact Nat.mul_div_cancel_left k (Nat.pos_pow_of_pos _ (by omega))
    rw [hdiv, hk]
    have hz : (10 : ℚ) ^ d.e = ((10 : ℚ) ^ ((-d.e).toNat : ℕ))⁻¹ := by
      rw [← zpow_natCast, Int.toNat_of_nonneg (by omega), ← zpow_neg]
      congr 1
      omega
    rw [hz]
    have hpow : (0 : ℚ) < (10 : ℚ) ^ ((-d.e).toNat : ℕ) := by positivity
    cases d.neg <;> simp only [Bool.cond_false, Bool.cond_true] <;> push_cast <;>
      field_simp <;> ring

/-- On the positive branch a nonzero exact integer is at least 1. -/

theorem decToInt_pos (d : Dec) (hneg : d.neg = false) (hc : d.c ≠ 0)
    (h : decIsInt d = true) : 1 ≤ decToInt d := by
  unfold decToInt
  rw [hneg]
  show (1 : ℤ) * _ ≥ 1
  rw [one_mul]
  by_cases he : 0 ≤ d.e
  · rw [if_pos he]
    have h1 : (1 : ℤ) ≤ (d.c : ℤ) := by omega
    have h2 : (1 : ℤ) ≤ 10 ^ d.e.toNat := one_le_pow₀ (by omega)
    nlinarith
  · rw [if_neg he]
    unfold decIsInt at h
    rw [if_neg he, decide_eq_true_eq] at h
    have hdvd : 10 ^ (-d.e).toNat ∣ d.c := Nat.dvd_of_mod_eq_zero h
    obtain ⟨k, hk⟩ := hdvd
    have hk1 : 1 ≤ k := by
      rcases Nat.eq_zero_or_pos k with h0 | h1
      · subst h0; simp at hk; omega
      · omega
    have : 1 ≤ d.c / 10 ^ (-d.e).toNat := by
      rw [hk, Nat.mul_div_cancel_left k (Nat.pos_pow_of_pos _ (by omega))]
      omega
    omega

/-- `decNegative` agrees with the Decimal comparison `number < 0`. -/

theorem decNegative_iff (d : Dec) : decNegative d = true ↔ decVal d < 0 := by
  unfold decNegative decVal
  cases hn : d.neg <;> simp only [Bool.false_and, Bool.true_and, Bool.cond_false, Bool.cond_true]
  · constructor
    · intro h; simp at h
    · intro h
      exfalso
      have hc : (0 : ℚ) ≤ (d.c : ℚ) := by positivity
      have hp : (0 : ℚ) < (10 : ℚ) ^ d.e := by positivity
      nlinarith
  · rw [decide_eq_true_eq]
    constructor
    · intro h
      have hc : (0 : ℚ) < (d.c : ℚ) := by
        have h1 : 1 ≤ d.c := by omega
        have : (1 : ℚ) ≤ (d.c : ℚ) := by exact_mod_cast h1
        linarith
      have hp : (0 : ℚ) < (10 : ℚ) ^ d.e := by positivity
      nlinarith
    · intro h
      by_contra hc
      have hc0 : d.c = 0 := by omega
      rw [hc0] at h
      simp at h

/-!
## Claims C3, C4: the Binary Scaler
-/

/-- C3 counterexample: for the 256-significant-digit input 7·10^254 + 1/10
(255 integer digits and one fractional digit) the very first doubling
overflows the 256-digit context precision and rounds half-even; the loop then
exits with scale 1 and integer value 14·10^254, which is not the original
magnitude times 2^1 (that product is not even an integer). -/

theorem C3_counterexample :
    scale_up_to_integer 5 ⟨false, 7 * 10 ^ 255 + 1, -1⟩ 0
      = some (1, ⟨false, 14 * 10 ^ 254, 0⟩) ∧
    ((decToInt ⟨false, 14 * 10 ^ 254, 0⟩ : ℤ) : ℚ)
      ≠ decVal ⟨false, 7 * 10 ^ 255 + 1, -1⟩ * 2 ^ (1 : ℕ) := by
  constructor
  · decide
  · unfold decToInt decVal
    norm_num

/-- C3 (amended): whenever the scaling loop finishes and every doubling it
performed stayed within the 256-significant-digit context precision (so no
rounding occurred), the returned integer equals the input value times 2^scale
exactly, and the final Decimal is an exact integer. -/

theorem C3_scaling_exact (fuel : ℕ) (d : Dec) (s : ℕ) (d' : Dec)
    (hrun : scale_up_to_integer fuel d 0 = some (s, d'))
    (hexact : scaleExact fuel d = true) :
    ((decToInt d' : ℤ) : ℚ) = decVal d * 2 ^ s ∧ decIsInt d' = true := by
  have hshape := scale_up_shape fuel d 0 s d' hrun
  have hval := scale_up_exact_val fuel d 0 s d' hrun hexact
  refine ⟨?_, hshape.1⟩
  rw [decToInt_eq d' hshape.1, hval]
  simp

/-- C3 witness: the scaling loop on 13.375 doubles three times, exactly. -/

theorem C3_witness :
    ((decToInt ⟨false, 107000, -3⟩ : ℤ) : ℚ) = decVal ⟨false, 13375, -3⟩ * 2 ^ (3 : ℕ) ∧
    decIsInt ⟨false, 107000, -3⟩ = true :=
  C3_scaling_exact 10 ⟨false, 13375, -3⟩ 3 ⟨false, 107000, -3⟩ (by decide) (by decide)

/-- C4 counterexample: the input 2^-101 needs 101 doublings; the loop performs
all 101 of them and completes (with fuel 100 — a hard 100-iteration cap — it
would not have finished), so the loop is not capped at 100 iterations; the
flag is merely set afterwards. -/

theorem C4_counterexample :
    scale_up_to_integer 101 ⟨false, 5 ^ 101, -101⟩ 0
      = some (101, ⟨false, 10 ^ 101, -101⟩) ∧
    scale_up_to_integer 100 ⟨false, 5 ^ 101, -101⟩ 0 = none ∧
    unableToScaleFlag 101 = true ∧ ¬(101 ≤ 100) := by
  refine ⟨by decide, by decide, by decide, by decide⟩

/-- C4 (amended): the doubling loop has no iteration cap — a run that finishes
within some fuel finishes identically with any larger fuel — and after the
loop the `unable_to_scale` flag is set, true exactly when more than 100
doublings were needed. -/

theorem C4_uncapped_flag (fuel fuel' : ℕ) (d : Dec) (r : ℕ × Dec)
    (hrun : scale_up_to_integer fuel d 0 = some r) (hle : fuel ≤ fuel') :
    scale_up_to_integer fuel' d 0 = some r ∧
    unableToScaleFlag r.1 = decide (100 < r.1) :=
  ⟨scale_up_fuel_mono fuel fuel' d 0 r hrun hle, rfl⟩

/-- C4 witness: instantiated on the 101-doubling input 2^-101. -/

theorem C4_witness :
    scale_up_to_integer 150 ⟨false, 5 ^ 101, -101⟩ 0
      = some (101, ⟨false, 10 ^ 101, -101⟩) ∧
    unableToScaleFlag 101 = decide (100 < 101) :=
  C4_uncapped_flag 101 150 ⟨false, 5 ^ 101, -101⟩ (101, ⟨false, 10 ^ 101, -101⟩)
    (by decide) (by decide)

/-!
## Claim C5: the "NaN" bit pattern
-/

/-- C5 counterexample: encoding the text "NaN" at single precision produces
the quiet-NaN pattern (mantissa 1 then 22 zeros), not the claimed generic
all-ones mantissa: `Decimal("NaN")` is a quiet NaN, so the qNaN branch fires
before the unreachable generic catch-all. -/

theorem C5_counterexample :
    validate_edge_case 8 23 "NaN"
      = some ⟨'0', List.replicate 8 '1', '1' :: List.replicate 22 '0'⟩ ∧
    validate_edge_case 8 23 "NaN" ≠ some (genericNaNFields 8 23) := by
  constructor <;> decide

/-- C5 (amended): for every layout, encoding the text "NaN" produces sign 0,
exponent all ones, and the quiet-NaN mantissa: a leading 1 followed by
zeros. -/

theorem C5_nan_is_quiet (E M : ℕ) :
    validate_edge_case E M "NaN"
      = some ⟨'0', List.replicate E '1', '1' :: List.replicate (M - 1) '0'⟩ := by
  have h : decimalClassOf "NaN" = DecClass.qnan := by decide
  unfold validate_edge_case
  rw [h]

/-!
## Claim C6: the denormal boundary
-/

/-- The if-then-else normal form of `validate_finite`. -/

theorem validate_finite_eq (E M : ℕ) (q : ℚ) :
    validate_finite E M q =
      if |q| < (calculate_denormalized_range E M).1 then NumCheck.magnitudeTooSmall
      else if |q| < (calculate_denormalized_range E M).2 then NumCheck.exponentLost
      else NumCheck.ok := rfl

/-- C6 counterexample: at half precision a magnitude exactly equal to
smallest_denormalized = 2^-24 is rejected by the second check (the
"we lost exponent" ValueError), not accepted. -/

theorem C6_counterexample :
    (calculate_denormalized_range 5 10).1 = (2 : ℚ) ^ (-24 : ℤ) ∧
    validate_finite 5 10 ((2 : ℚ) ^ (-24 : ℤ)) = NumCheck.exponentLost ∧
    NumCheck.exponentLost ≠ NumCheck.ok := by
  refine ⟨?_, ?_, by decide⟩
  · unfold calculate_denormalized_range
    norm_num
  · rw [validate_finite_eq]
    rw [abs_of_pos (by positivity : (0 : ℚ) < (2 : ℚ) ^ (-24 : ℤ))]
    unfold calculate_denormalized_range
    norm_num

/-- C6 (amended): at the half-precision layout, a magnitude exactly equal to
smallest_denormalized fails with the ExponentLost error (it lies inside the
denormal range), while any smaller nonzero magnitude fails with
MagnitudeTooSmall; only the second half of the original claim holds. -/

theorem C6_boundary (q : ℚ) :
    (|q| = (calculate_denormalized_range 5 10).1 →
      validate_finite 5 10 q = NumCheck.exponentLost) ∧
    (|q| < (calculate_denormalized_range 5 10).1 →
      validate_finite 5 10 q = NumCheck.magnitudeTooSmall) := by
  constructor
  · intro h
    rw [validate_finite_eq, if_neg (by rw [h]; exact lt_irrefl _), if_pos ?_]
    rw [h]
    unfold calculate_denormalized_range
    norm_num
  · intro h
    rw [validate_finite_eq, if_pos h]

/-- C6 witness: instantiated at 2^-24 (the boundary) and 2^-25 (below it). -/

theorem C6_witness :
    validate_finite 5 10 ((2 : ℚ) ^ (-24 : ℤ)) = NumCheck.exponentLost ∧
    validate_finite 5 10 ((2 : ℚ) ^ (-25 : ℤ)) = NumCheck.magnitudeTooSmall := by
  constructor
  · refine (C6_boundary ((2 : ℚ) ^ (-24 : ℤ))).1 ?_
    rw [abs_of_pos (by positivity)]
    unfold calculate_denormalized_range
    norm_num
  · refine (C6_boundary ((2 : ℚ) ^ (-25 : ℤ))).2 ?_
    rw [abs_of_pos (by positivity)]
    unfold calculate_denormalized_range
    norm_num

/-!
## Claim C9: precision presets
-/

/-- C9 counterexample: precision index -1 is outside 0..4 yet does not fail —
Python negative list indexing wraps around, yielding the octuple layout. -/

theorem C9_counterexample :
    resolveLayout (-1) = some ⟨19, 236⟩ ∧ resolveLayout (-1) ≠ none := by
  constructor <;> decide

/-- C9 (amended): presets 0..4 resolve per the table
{0:(5,10), 1:(8,23), 2:(11,52), 3:(15,112), 4:(19,236)}; construction fails
with IndexError exactly for indices outside -5..4; indices -5..-1 succeed by
Python negative-index wrap-around. -/

theorem C9_preset_ranges :
    (∀ i : ℤ, (resolveLayout i).isSome = decide (-5 ≤ i ∧ i < 5)) ∧
    resolveLayout 0 = some ⟨5, 10⟩ ∧ resolveLayout 1 = some ⟨8, 23⟩ ∧
    resolveLayout 2 = some ⟨11, 52⟩ ∧ resolveLayout 3 = some ⟨15, 112⟩ ∧
    resolveLayout 4 = some ⟨19, 236⟩ := by
  refine ⟨?_, by decide, by decide, by decide, by decide, by decide⟩
  intro i
  by_cases h : -5 ≤ i ∧ i < 5
  · obtain ⟨h1, h2⟩ := h
    interval_cases i <;> decide
  · have hnone : resolveLayout i = none := by
      unfold resolveLayout pyListGet exponentPresetList mantissaPresetList
      simp only [List.length_cons, List.length_nil]
      norm_num
      rw [if_neg (by omega), if_neg (by omega)]
    rw [hnone]
    simp only [Option.isSome_none]
    symm
    rw [decide_eq_false_iff_not]
    exact h

/-!
## Claims C7, C8, C10: field widths, the sticky mantissa rule, negation
-/

theorem encodeNormal_some (fuel : ℕ) (L : Layout) (d : Dec) (enc : NormalEnc)
    (h : encodeNormal fuel L d = some enc) :
    ∃ s d', scale_up_to_integer fuel ⟨false, d.c, d.e⟩ 0 = some (s, d') ∧
      enc = { sign := find_sign d
            , expF := find_exponent (to_binary ((decToInt d').toNat)).length s
                (biasOf L.exponent) L.exponent
            , mantF := find_mantissa (to_binary ((decToInt d').toNat)) L.mantissa
            , scale := s
            , intVal := (decToInt d').toNat } := by
  unfold encodeNormal at h
  cases hm : scale_up_to_integer fuel ⟨false, d.c, d.e⟩ 0 with
  | none => rw [hm] at h; exact absurd h (by simp)
  | some p =>
    obtain ⟨s, d'⟩ := p
    rw [hm] at h
    simp only [Option.some.injEq] at h
    exact ⟨s, d', rfl, h.symm⟩

theorem encodeNormal_intVal_pos (fuel : ℕ) (L : Layout) (d : Dec) (enc : NormalEnc)
    (h : encodeNormal fuel L d = some enc) (hc : d.c ≠ 0) : 1 ≤ enc.intVal := by
  obtain ⟨s, d', hrun, henc⟩ := encodeNormal_some fuel L d enc h
  obtain ⟨hint, hneg, hcne, _⟩ := scale_up_shape fuel _ 0 s d' hrun
  have hpos : 1 ≤ decToInt d' := decToInt_pos d' hneg (hcne (by exact hc)) hint
  rw [henc]
  show 1 ≤ (decToInt d').toNat
  omega

/-- C7 counterexample: the accepted input 131072 = 2^17 at half precision
renders an exponent field of 6 characters, not exponent_bits = 5 (the biased
exponent 32 does not fit in 5 bits and the f-string does not truncate). -/

theorem C7_counterexample :
    (encodeNormal 10 ⟨5, 10⟩ ⟨false, 131072, 0⟩).map (fun enc => enc.expF.length)
      = some 6 ∧ (6 : ℕ) ≠ 5 := by
  constructor <;> decide

/-- C7 (amended): for every encode that returns a result the mantissa field
has exactly mantissa_bits characters; the exponent field has exactly
exponent_bits characters whenever the biased exponent value is nonnegative
and fits in exponent_bits bits — for larger magnitudes it is longer. -/

theorem C7_field_widths (fuel : ℕ) (L : Layout) (d : Dec) (enc : NormalEnc)
    (hc : d.c ≠ 0) (hE : 1 ≤ L.exponent) (hM : 1 ≤ L.mantissa)
    (henc : encodeNormal fuel L d = some enc) :
    enc.mantF.length = L.mantissa ∧
    (0 ≤ ((to_binary enc.intVal).length : ℤ) - 1 + biasOf L.exponent - enc.scale →
     ((to_binary enc.intVal).length : ℤ) - 1 + biasOf L.exponent - enc.scale
        < 2 ^ L.exponent →
     enc.expF.length = L.exponent) := by
  have hn : 1 ≤ enc.intVal := encodeNormal_intVal_pos fuel L d enc henc hc
  obtain ⟨s, d', hrun, hencEq⟩ := encodeNormal_some fuel L d enc henc
  constructor
  · rw [hencEq]
    exact find_mantissa_length _ _ (by rw [hencEq] at hn; exact hn) hM
  · intro h0 hfit
    rw [hencEq] at h0 hfit ⊢
    unfold find_exponent
    refine intBinPad_length_of_fits _ _ ?_ hE ?_
    · exact_mod_cast h0
    · calc (((to_binary ((decToInt d').toNat)).length : ℤ) - 1 + biasOf L.exponent - s)
          < 2 ^ L.exponent := by exact_mod_cast hfit

/-- C7 witness: field widths on 13.375 at single precision. -/

theorem C7_witness :
    (encOf 10 ⟨8, 23⟩ ⟨false, 13375, -3⟩).mantF.length = 23 ∧
    (encOf 10 ⟨8, 23⟩ ⟨false, 13375, -3⟩).expF.length = 8 := by
  have h := C7_field_widths 10 ⟨8, 23⟩ ⟨false, 13375, -3⟩
    (encOf 10 ⟨8, 23⟩ ⟨false, 13375, -3⟩) (by decide) (by decide) (by decide) (by decide)
  exact ⟨h.1, h.2 (by decide) (by decide)⟩

/-- C8: the sticky-bit mantissa rule, characterized arithmetically: the field
always has mantissa_bits characters; when the natural mantissa fits it is the
digits below the leading 1 shifted up by the trailing padding zeros, and when
it is longer it is the top mantissa_bits - 1 such digits with a forced final
1 bit. -/

theorem C8_sticky_mantissa (n M : ℕ) (hn : 1 ≤ n) (hM : 1 ≤ M) :
    (find_mantissa (to_binary n) M).length = M ∧
    parseBin (find_mantissa (to_binary n) M)
      = if (to_binary n).length - 1 ≤ M
        then (n - 2 ^ ((to_binary n).length - 1)) * 2 ^ (M - ((to_binary n).length - 1))
        else 2 * (n / 2 ^ ((to_binary n).length - M) - 2 ^ (M - 1)) + 1 := by
  refine ⟨find_mantissa_length n M hn hM, ?_⟩
  split
  · exact find_mantissa_pad n M hn (by assumption)
  · exact find_mantissa_trunc n M hn hM (by omega)

/-- C8 witness: instantiated at the truncating example n = 107, M = 3. -/

theorem C8_witness :
    (find_mantissa (to_binary 107) 3).length = 3 ∧
    parseBin (find_mantissa (to_binary 107) 3)
      = if (to_binary 107).length - 1 ≤ 3
        then (107 - 2 ^ ((to_binary 107).length - 1)) * 2 ^ (3 - ((to_binary 107).length - 1))
        else 2 * (107 / 2 ^ ((to_binary 107).length - 3) - 2 ^ (3 - 1)) + 1 :=
  C8_sticky_mantissa 107 3 (by decide) (by decide)

/-- C10: sign-only negation.  Validation accepts a number iff it accepts its
negation, and on the normal path the encoding of the negated input differs
from the original only in the sign character (the scaling and field
extraction run on the absolute value). -/

theorem C10_sign_only_negation :
    (∀ E M : ℕ, ∀ q : ℚ, validate_finite E M (-q) = validate_finite E M q) ∧
    (∀ fuel : ℕ, ∀ L : Layout, ∀ c : ℕ, ∀ e : ℤ, ∀ enc : NormalEnc,
      c ≠ 0 → encodeNormal fuel L ⟨false, c, e⟩ = some enc →
      encodeNormal fuel L ⟨true, c, e⟩
        = some ⟨'1', enc.expF, enc.mantF, enc.scale, enc.intVal⟩ ∧ enc.sign = '0') := by
  constructor
  · intro E M q
    rw [validate_finite_eq, validate_finite_eq, abs_neg]
  · intro fuel L c e enc hc henc
    obtain ⟨s, d', hrun, hencEq⟩ := encodeNormal_some fuel L ⟨false, c, e⟩ enc henc
    have hsign1 : find_sign ⟨true, c, e⟩ = '1' := by
      unfold find_sign decNegative
      simp [hc]
    have hsign0 : find_sign ⟨false, c, e⟩ = '0' := by
      unfold find_sign decNegative
      simp
    constructor
    · unfold encodeNormal
      rw [show (⟨true, c, e⟩ : Dec).c = c from rfl, show (⟨true, c, e⟩ : Dec).e = e from rfl]
      rw [show (⟨false, c, e⟩ : Dec).c = c from rfl, show (⟨false, c, e⟩ : Dec).e = e from rfl] at hrun
      rw [hrun]
      simp only [Option.some.injEq]
      rw [hencEq]
      simp [hsign1]
    · rw [hencEq]
      exact hsign0

/-- C10 witness: negating 13.375 at single precision flips only the sign. -/

theorem C10_witness :
    encodeNormal 10 ⟨8, 23⟩ ⟨true, 13375, -3⟩
      = some ⟨'1', (encOf 10 ⟨8, 23⟩ ⟨false, 13375, -3⟩).expF,
          (encOf 10 ⟨8, 23⟩ ⟨false, 13375, -3⟩).mantF,
          (encOf 10 ⟨8, 23⟩ ⟨false, 13375, -3⟩).scale,
          (encOf 10 ⟨8, 23⟩ ⟨false, 13375, -3⟩).intVal⟩ ∧
    (encOf 10 ⟨8, 23⟩ ⟨false, 13375, -3⟩).sign = '0' :=
  C10_sign_only_negation.2 10 ⟨8, 23⟩ 13375 (-3)
    (encOf 10 ⟨8, 23⟩ ⟨false, 13375, -3⟩) (by decide) (by decide)

/-!
## Lemmas about binary64 rounding
-/

theorem floorLog2_spec (q : ℚ) (hq : 0 < q) :
    (2 : ℚ) ^ floorLog2 q ≤ q ∧ q < (2 : ℚ) ^ (floorLog2 q + 1) := by
  have hden : (0 : ℚ) < (q.den : ℚ) := by exact_mod_cast q.den_pos
  have hnum : 0 < q.num := Rat.num_pos.mpr hq
  set n := q.num.toNat with hn
  have hnz : (n : ℤ) = q.num := Int.toNat_of_nonneg (by omega)
  have hncast : (n : ℚ) = (q.num : ℚ) := by exact_mod_cast hnz
  have hn1 : 1 ≤ n := by omega
  have hqeq : q = (n : ℚ) / (q.den : ℚ) := by
    rw [hncast]
    exact (Rat.num_div_den q).symm
  by_cases h1 : 1 ≤ q
  · set t := n / q.den with ht
    have hfl : floorLog2 q = (nlog2 t : ℤ) := by
      unfold floorLog2
      rw [if_pos h1]
    have hnd : q.den ≤ n := by
      rw [hqeq, le_div_iff hden] at h1
      have : (q.den : ℚ) ≤ (n : ℚ) := by linarith
      exact_mod_cast this
    have ht1 : 1 ≤ t := (Nat.one_le_div_iff q.pos).mpr hnd
    have hlow : 2 ^ Nat.log 2 t ≤ t := Nat.pow_log_le_self 2 (by omega)
    have hhigh : t < 2 ^ (Nat.log 2 t + 1) := Nat.lt_pow_succ_log_self (by omega) t
    have htq : (t : ℚ) ≤ q := by
      have hmul : t * q.den ≤ n := Nat.div_mul_le_self _ _
      rw [hqeq, le_div_iff hden]
      exact_mod_cast hmul
    have hqt : q < (t : ℚ) + 1 := by
      have hmod := Nat.div_add_mod n q.den
      have hr : n % q.den < q.den := Nat.mod_lt _ q.pos
      have hlt : n < (t + 1) * q.den := by
        have : q.den * t + n % q.den = n := hmod
        nlinarith
      rw [hqeq, div_lt_iff hden]
      have : (n : ℚ) < ((t + 1) * q.den : ℕ) := by exact_mod_cast hlt
      push_cast at this ⊢
      linarith
    rw [hfl, nlog2_eq]
    constructor
    · rw [zpow_natCast]
      calc ((2 : ℚ) ^ Nat.log 2 t) = ((2 ^ Nat.log 2 t : ℕ) : ℚ) := by push_cast; ring
        _ ≤ (t : ℚ) := by exact_mod_cast hlow
        _ ≤ q := htq
    · rw [show ((Nat.log 2 t : ℤ) + 1) = ((Nat.log 2 t + 1 : ℕ) : ℤ) by push_cast; ring,
        zpow_natCast]
      calc q < (t : ℚ) + 1 := hqt
        _ ≤ ((2 ^ (Nat.log 2 t + 1) : ℕ) : ℚ) := by exact_mod_cast hhigh
        _ = (2 : ℚ) ^ (Nat.log 2 t + 1) := by push_cast; ring
  · push_neg at h1
    have hnd : n < q.den := by
      rw [hqeq, div_lt_one hden] at h1
      exact_mod_cast h1
    set u := (q.den - 1) / n with hu
    have hfl : floorLog2 q = -((nlog2 u : ℤ) + 1) := by
      unfold floorLog2
      rw [if_neg (by exact not_le.mpr h1)]
    have hu1 : 1 ≤ u := (Nat.one_le_div_iff (by omega)).mpr (by omega)
    have hlow : 2 ^ Nat.log 2 u ≤ u := Nat.pow_log_le_self 2 (by omega)
    have hhigh : u < 2 ^ (Nat.log 2 u + 1) := Nat.lt_pow_succ_log_self (by omega) u
    set g := Nat.log 2 u with hg
    have hup : n * 2 ^ g < q.den := by
      have h2 : n * 2 ^ g ≤ n * u := by
        exact Nat.mul_le_mul_left n hlow
      have h3 : n * u ≤ q.den - 1 := by
        rw [hu, Nat.mul_comm]
        exact Nat.div_mul_le_self _ _
      omega
    have hdown : q.den ≤ n * 2 ^ (g + 1) := by
      have h4 : q.den - 1 < 2 ^ (g + 1) * n := by
        rw [hu] at hhigh
        exact (Nat.div_lt_iff_lt_mul (show 0 < n by omega)).mp hhigh
      rw [Nat.mul_comm] at h4
      omega
    rw [hfl, nlog2_eq, ← hg]
    have hpow : (0 : ℚ) < (2 : ℚ) ^ (g + 1 : ℕ) := by positivity
    have hpowg : (0 : ℚ) < (2 : ℚ) ^ (g : ℕ) := by positivity
    constructor
    · rw [show -((g : ℤ) + 1) = -(((g + 1 : ℕ) : ℤ)) by push_cast; ring,
        zpow_neg, zpow_natCast]
      rw [inv_le_iff_one_le_mul₀ hpow]
      rw [hqeq, div_mul_eq_mul_div, le_div_iff hden]
      have : (q.den : ℚ) ≤ ((n * 2 ^ (g + 1) : ℕ) : ℚ) := by exact_mod_cast hdown
      push_cast at this ⊢
      linarith
    · rw [show -((g : ℤ) + 1) + 1 = -((g : ℕ) : ℤ) by push_cast; ring,
        zpow_neg, zpow_natCast]
      rw [inv_eq_one_div, lt_div_iff hpowg]
      rw [hqeq, div_mul_eq_mul_div, div_lt_one hden]
      have : ((n * 2 ^ g : ℕ) : ℚ) < (q.den : ℚ) := by exact_mod_cast hup
      push_cast at this ⊢
      linarith

theorem floorLog2_unique (q : ℚ) (a : ℤ) (hq : 0 < q)
    (h1 : (2 : ℚ) ^ a ≤ q) (h2 : q < (2 : ℚ) ^ (a + 1)) : floorLog2 q = a := by
  obtain ⟨hl, hh⟩ := floorLog2_spec q hq
  by_contra hne
  rcases lt_or_gt_of_ne hne with hlt | hgt
  · have : (2 : ℚ) ^ (floorLog2 q + 1) ≤ (2 : ℚ) ^ a :=
      zpow_le_zpow_right₀ (by norm_num) (by omega)
    linarith
  · have : (2 : ℚ) ^ (a + 1) ≤ (2 : ℚ) ^ floorLog2 q :=
      zpow_le_zpow_right₀ (by norm_num) (by omega)
    linarith

/-- The if-then-else normal form of `rheInt`. -/

theorem rheInt_eq (q : ℚ) :
    rheInt q =
      if 2 * (q.num % (q.den : ℤ)) < (q.den : ℤ) then q.num / (q.den : ℤ)
      else if (q.den : ℤ) < 2 * (q.num % (q.den : ℤ)) then q.num / (q.den : ℤ) + 1
      else if (q.num / (q.den : ℤ)) % 2 = 0 then q.num / (q.den : ℤ)
      else q.num / (q.den : ℤ) + 1 := rfl

/-- Round half even returns the floor when the fractional part is below
one half. -/

theorem rheInt_round_down (z : ℤ) (q : ℚ) (h1 : (z : ℚ) ≤ q)
    (h2 : q < (z : ℚ) + 1 / 2) : rheInt q = z := by
  have hden : (0 : ℚ) < (q.den : ℚ) := by exact_mod_cast q.den_pos
  have hnum : (q.num : ℚ) = q * (q.den : ℚ) := by
    have h := Rat.num_div_den q
    rw [div_eq_iff (ne_of_gt hden)] at h
    exact h
  have hlow : z * (q.den : ℤ) ≤ q.num := by
    have : (z : ℚ) * (q.den : ℚ) ≤ (q.num : ℚ) := by
      rw [hnum]
      have := mul_le_mul_of_nonneg_right h1 hden.le
      linarith
    exact_mod_cast this
  have hup : 2 * q.num < 2 * (z * (q.den : ℤ)) + (q.den : ℤ) := by
    have : 2 * (q.num : ℚ) < 2 * ((z : ℚ) * (q.den : ℚ)) + (q.den : ℚ) := by
      rw [hnum]
      nlinarith [mul_lt_mul_of_pos_right h2 hden]
    exact_mod_cast this
  rw [mul_comm] at hlow
  rw [mul_comm z ((q.den : ℤ))] at hup
  set t := q.num - (q.den : ℤ) * z with htdef
  have ht0 : 0 ≤ t := by omega
  have ht2 : 2 * t < (q.den : ℤ) := by omega
  have hdenz : (0 : ℤ) < (q.den : ℤ) := by exact_mod_cast q.den_pos
  have hnum_eq : q.num = t + (q.den : ℤ) * z := by omega
  have hdiv : q.num / (q.den : ℤ) = z := by
    rw [hnum_eq, Int.add_mul_ediv_left t z (by omega),
      Int.ediv_eq_zero_of_lt ht0 (by omega)]
    omega
  have hmod : q.num % (q.den : ℤ) = t := by
    rw [hnum_eq, Int.add_mul_emod_self_left]
    exact Int.emod_eq_of_lt ht0 (by omega)
  rw [rheInt_eq, hmod, hdiv, if_pos ht2]

theorem rheInt_intCast (z : ℤ) : rheInt ((z : ℤ) : ℚ) = z :=
  rheInt_round_down z _ le_rfl (by norm_num)

/-- The normal form of `flPos`. -/

theorem flPos_eq (q : ℚ) :
    flPos q = (rheInt (q * 2 ^ (52 - floorLog2 q)) : ℚ) * 2 ^ (-(52 - floorLog2 q)) := rfl

/-- A value with an exactly representable 53-bit significand is a fixed point
of binary64 rounding. -/

theorem fl_u52 (u : ℕ) (t : ℤ) (h1 : 2 ^ 52 ≤ u) (h2 : u < 2 ^ 53) :
    fl ((u : ℚ) * 2 ^ t) = (u : ℚ) * 2 ^ t := by
  have hu0 : (0 : ℚ) < (u : ℚ) := by
    have : 0 < u := by positivity
    exact_mod_cast this
  have hq : (0 : ℚ) < (u : ℚ) * 2 ^ t := by positivity
  have hcast1 : ((2 : ℚ) ^ (52 + t)) ≤ (u : ℚ) * 2 ^ t := by
    rw [zpow_add₀ (by norm_num : (2 : ℚ) ≠ 0)]
    have hle : ((2 ^ 52 : ℕ) : ℚ) ≤ (u : ℚ) := by exact_mod_cast h1
    have h252 : ((2 ^ 52 : ℕ) : ℚ) = (2 : ℚ) ^ (52 : ℤ) := by
      push_cast
      norm_num
    rw [h252] at hle
    have hp : (0 : ℚ) < (2 : ℚ) ^ t := by positivity
    nlinarith
  have hcast2 : (u : ℚ) * 2 ^ t < (2 : ℚ) ^ (52 + t + 1) := by
    rw [show (52 + t + 1 : ℤ) = 53 + t by ring, zpow_add₀ (by norm_num : (2 : ℚ) ≠ 0)]
    have hlt : (u : ℚ) < ((2 ^ 53 : ℕ) : ℚ) := by exact_mod_cast h2
    have h253 : ((2 ^ 53 : ℕ) : ℚ) = (2 : ℚ) ^ (53 : ℤ) := by
      push_cast
      norm_num
    rw [h253] at hlt
    have hp : (0 : ℚ) < (2 : ℚ) ^ t := by positivity
    nlinarith
  have hfl2 : floorLog2 ((u : ℚ) * 2 ^ t) = 52 + t :=
    floorLog2_unique _ _ hq hcast1 hcast2
  unfold fl
  rw [if_neg hq.ne', if_neg (not_lt.mpr hq.le)]
  rw [flPos_eq, hfl2]
  have hexpsub : (52 : ℤ) - (52 + t) = -t := by ring
  rw [hexpsub]
  have harg : (u : ℚ) * 2 ^ t * 2 ^ (-t) = ((u : ℤ) : ℚ) := by
    rw [mul_assoc, ← zpow_add₀ (by norm_num : (2 : ℚ) ≠ 0)]
    simp
  rw [harg, rheInt_intCast]
  rw [neg_neg]
  push_cast
  ring

/-- Binary64 rounding is odd. -/

theorem fl_neg (q : ℚ) : fl (-q) = -(fl q) := by
  rcases lt_trichotomy q 0 with h | h | h
  · have hq : q ≠ 0 := ne_of_lt h
    have hnq : 0 < -q := by linarith
    unfold fl
    rw [if_neg (by intro hc; exact hq (by linarith [neg_eq_zero.mp hc])),
      if_neg (not_lt.mpr hnq.le), if_neg hq, if_pos h, neg_neg]
  · subst h; simp [fl]
  · have hq : q ≠ 0 := ne_of_gt h
    unfold fl
    rw [if_neg (by intro hc; exact hq (by linarith [neg_eq_zero.mp hc])),
      if_pos (by linarith), if_neg hq, if_neg (not_lt.mpr h.le), neg_neg]

/-- Any natural number below 2^53 times a power of two is a fixed point of
binary64 rounding. -/

theorem fl_nat_mul_zpow (k : ℕ) (t : ℤ) (hk : k < 2 ^ 53) :
    fl ((k : ℚ) * 2 ^ t) = (k : ℚ) * 2 ^ t := by
  rcases Nat.eq_zero_or_pos k with h0 | hpos
  · subst h0
    norm_num [fl]
  · set g := Nat.log 2 k with hg
    have hg52 : g ≤ 52 := by
      have := (Nat.lt_pow_iff_log_lt (by omega) (by omega)).mp hk
      omega
    have hlow : 2 ^ g ≤ k := Nat.pow_log_le_self 2 (by omega)
    have hhigh : k < 2 ^ (g + 1) := Nat.lt_pow_succ_log_self (by omega) k
    set u := k * 2 ^ (52 - g) with hu
    have hu1 : 2 ^ 52 ≤ u := by
      calc (2 : ℕ) ^ 52 = 2 ^ g * 2 ^ (52 - g) := by
            rw [← pow_add]
            congr 1
            omega
        _ ≤ k * 2 ^ (52 - g) := Nat.mul_le_mul_right _ hlow
    have hu2 : u < 2 ^ 53 := by
      calc u < 2 ^ (g + 1) * 2 ^ (52 - g) :=
            (Nat.mul_lt_mul_right (Nat.pos_pow_of_pos _ (by omega))).mpr hhigh
        _ = 2 ^ 53 := by
            rw [← pow_add]
            congr 1
            omega
    have hcast : (u : ℚ) = (k : ℚ) * (2 : ℚ) ^ ((52 - g : ℕ) : ℤ) := by
      rw [hu]
      push_cast
      rw [zpow_natCast]
    have hsub : ((52 - g : ℕ) : ℤ) = 52 - (g : ℤ) := by omega
    have hrw : (k : ℚ) * 2 ^ t = (u : ℚ) * 2 ^ (t - (52 - (g : ℤ))) := by
      rw [hcast, hsub, mul_assoc, ← zpow_add₀ (by norm_num : (2 : ℚ) ≠ 0)]
      congr 1
      ring
    rw [hrw]
    exact fl_u52 u _ hu1 hu2

/-- The normal form of `pyEvalReconstruct`. -/

theorem pyEvalReconstruct_eq (sgn : ℤ) (mant M : ℕ) (ex : ℤ) :
    pyEvalReconstruct sgn mant M ex =
      fl (fl ((sgn : ℚ) * fl (1 + fl (fl ((mant : ℚ)) * fl ((2 : ℚ) ^ (-(M : ℤ))))))
        * (2 : ℚ) ^ ex) := rfl

/-- For mantissa widths up to 52 bits the float evaluation of the decoder is
exact: every intermediate is exactly representable in binary64 (assuming, as
everywhere in this model, that no exponent over/underflow occurs). -/

theorem pyEval_exact (k M : ℕ) (ex : ℤ) (hM : M ≤ 52) (hk : k < 2 ^ M) :
    pyEvalReconstruct 1 k M ex = (1 + (k : ℚ) * 2 ^ (-(M : ℤ))) * 2 ^ ex ∧
    pyEvalReconstruct (-1) k M ex = -((1 + (k : ℚ) * 2 ^ (-(M : ℤ))) * 2 ^ ex) := by
  have hk53 : k < 2 ^ 53 := lt_of_lt_of_le hk (Nat.pow_le_pow_right (by omega) (by omega))
  have ha : fl ((2 : ℚ) ^ (-(M : ℤ))) = (2 : ℚ) ^ (-(M : ℤ)) := by
    have h := fl_nat_mul_zpow 1 (-(M : ℤ)) (by norm_num)
    simpa using h
  have hflk : fl ((k : ℚ)) = (k : ℚ) := by
    have h := fl_nat_mul_zpow k 0 hk53
    simpa using h
  have hb : fl (fl ((k : ℚ)) * fl ((2 : ℚ) ^ (-(M : ℤ)))) = (k : ℚ) * 2 ^ (-(M : ℤ)) := by
    rw [hflk, ha]
    exact fl_nat_mul_zpow k (-(M : ℤ)) hk53
  set u := (2 ^ M + k) * 2 ^ (52 - M) with hudef
  have hu1 : 2 ^ 52 ≤ u := by
    calc (2 : ℕ) ^ 52 = 2 ^ M * 2 ^ (52 - M) := by
          rw [← pow_add]
          congr 1
          omega
      _ ≤ (2 ^ M + k) * 2 ^ (52 - M) := Nat.mul_le_mul_right _ (by omega)
  have hu2 : u < 2 ^ 53 := by
    have hlt : 2 ^ M + k < 2 ^ (M + 1) := by
      have : (2 : ℕ) ^ (M + 1) = 2 ^ M + 2 ^ M := by ring
      omega
    calc u < 2 ^ (M + 1) * 2 ^ (52 - M) :=
          (Nat.mul_lt_mul_right (Nat.pos_pow_of_pos _ (by omega))).mpr hlt
      _ = 2 ^ 53 := by
          rw [← pow_add]
          congr 1
          omega
  have hsub : ((52 - M : ℕ) : ℤ) = 52 - (M : ℤ) := by omega
  have hcval : (1 : ℚ) + (k : ℚ) * 2 ^ (-(M : ℤ)) = (u : ℚ) * 2 ^ (-52 : ℤ) := by
    have hucast : (u : ℚ) = ((2 ^ M + k : ℕ) : ℚ) * (2 : ℚ) ^ ((52 - M : ℕ) : ℤ) := by
      rw [hudef]
      push_cast
      rw [zpow_natCast]
    rw [hucast, hsub, mul_assoc, ← zpow_add₀ (by norm_num : (2 : ℚ) ≠ 0)]
    rw [show (52 - (M : ℤ) + -52 : ℤ) = -(M : ℤ) by ring]
    push_cast
    rw [add_mul]
    congr 1
    rw [← zpow_natCast (2 : ℚ) M, ← zpow_add₀ (by norm_num : (2 : ℚ) ≠ 0)]
    norm_num
  have hc : fl (1 + (k : ℚ) * 2 ^ (-(M : ℤ))) = 1 + (k : ℚ) * 2 ^ (-(M : ℤ)) := by
    rw [hcval]
    exact fl_u52 u _ hu1 hu2
  have houter : fl ((1 + (k : ℚ) * 2 ^ (-(M : ℤ))) * 2 ^ ex)
      = (1 + (k : ℚ) * 2 ^ (-(M : ℤ))) * 2 ^ ex := by
    rw [hcval, mul_assoc, ← zpow_add₀ (by norm_num : (2 : ℚ) ≠ 0)]
    exact fl_u52 u _ hu1 hu2
  constructor
  · rw [pyEvalReconstruct_eq, hb, hc]
    rw [show ((1 : ℤ) : ℚ) * (1 + (k : ℚ) * 2 ^ (-(M : ℤ)))
        = 1 + (k : ℚ) * 2 ^ (-(M : ℤ)) by push_cast; ring]
    rw [hc]
    exact houter
  · rw [pyEvalReconstruct_eq, hb, hc]
    rw [show ((-1 : ℤ) : ℚ) * (1 + (k : ℚ) * 2 ^ (-(M : ℤ)))
        = -(1 + (k : ℚ) * 2 ^ (-(M : ℤ))) by push_cast; ring]
    rw [fl_neg, hc, neg_mul, fl_neg, houter]

/-- The exact-arithmetic round-trip bound: for the scaled integer n with
binary length Lb, the value reconstructed from the mantissa field differs
from n by at most 2^(Lb - 1 - M) (zero in the padding case, where the
mantissa is exact). -/

theorem core_bound (n M : ℕ) (hn : 1 ≤ n) (hM1 : 1 ≤ M) :
    |(n : ℚ) - (1 + (parseBin (find_mantissa (to_binary n) M) : ℚ) * 2 ^ (-(M : ℤ)))
        * 2 ^ (((to_binary n).length : ℤ) - 1)|
      ≤ 2 ^ (((to_binary n).length : ℤ) - 1 - M) := by
  have h2ne : (2 : ℚ) ≠ 0 := by norm_num
  set Lb := (to_binary n).length with hLb
  have hLb1 : 1 ≤ Lb := by
    rw [hLb, to_binary_length n hn]
    omega
  obtain ⟨hlow, hhigh⟩ := to_binary_bounds n hn
  rw [← hLb] at hlow hhigh
  by_cases hcase : Lb - 1 ≤ M
  · -- padding case: the reconstruction is exact
    have hk := find_mantissa_pad n M hn (by rw [← hLb] at *; exact hcase)
    rw [← hLb] at hk
    set k := parseBin (find_mantissa (to_binary n) M) with hkdef
    have hLbz : ((Lb - 1 : ℕ) : ℤ) = (Lb : ℤ) - 1 := by omega
    have hMz : ((M - (Lb - 1) : ℕ) : ℤ) = (M : ℤ) - (Lb : ℤ) + 1 := by omega
    have hkq : (k : ℚ) = ((n : ℚ) - (2 : ℚ) ^ ((Lb : ℤ) - 1)) * (2 : ℚ) ^ ((M : ℤ) - Lb + 1) := by
      rw [hk, Nat.cast_mul, Nat.cast_sub hlow, Nat.cast_pow, Nat.cast_pow]
      rw [show ((2 : ℕ) : ℚ) = (2 : ℚ) by norm_num]
      rw [← zpow_natCast (2 : ℚ) (Lb - 1), ← zpow_natCast (2 : ℚ) (M - (Lb - 1)), hLbz, hMz]
    have hprod : (2 : ℚ) ^ ((M : ℤ) - Lb + 1) * 2 ^ (-(M : ℤ)) * 2 ^ ((Lb : ℤ) - 1) = 1 := by
      rw [← zpow_add₀ h2ne, ← zpow_add₀ h2ne]
      rw [show ((M : ℤ) - Lb + 1 + -(M : ℤ) + ((Lb : ℤ) - 1)) = 0 by ring]
      norm_num
    have hexact : (1 + (k : ℚ) * 2 ^ (-(M : ℤ))) * 2 ^ ((Lb : ℤ) - 1) = (n : ℚ) := by
      rw [hkq]
      calc (1 + ((n : ℚ) - 2 ^ ((Lb : ℤ) - 1)) * 2 ^ ((M : ℤ) - Lb + 1) * 2 ^ (-(M : ℤ)))
            * 2 ^ ((Lb : ℤ) - 1)
          = 2 ^ ((Lb : ℤ) - 1) + ((n : ℚ) - 2 ^ ((Lb : ℤ) - 1))
              * (2 ^ ((M : ℤ) - Lb + 1) * 2 ^ (-(M : ℤ)) * 2 ^ ((Lb : ℤ) - 1)) := by ring
        _ = 2 ^ ((Lb : ℤ) - 1) + ((n : ℚ) - 2 ^ ((Lb : ℤ) - 1)) * 1 := by rw [hprod]
        _ = (n : ℚ) := by ring
    rw [hexact, sub_self, abs_zero]
    positivity
  · -- truncation case
    push_neg at hcase
    have hk := find_mantissa_trunc n M hn hM1 (by rw [← hLb] at *; omega)
    rw [← hLb] at hk
    set k := parseBin (find_mantissa (to_binary n) M) with hkdef
    set A := n / 2 ^ (Lb - M) with hA
    set r := n % 2 ^ (Lb - M) with hr
    have hpos : 0 < 2 ^ (Lb - M) := Nat.pos_pow_of_pos _ (by omega)
    have hdm : 2 ^ (Lb - M) * A + r = n := Nat.div_add_mod n (2 ^ (Lb - M))
    have hrlt : r < 2 ^ (Lb - M) := Nat.mod_lt _ hpos
    have hsplit : (2 : ℕ) ^ (Lb - 1) = 2 ^ (M - 1) * 2 ^ (Lb - M) := by
      rw [← pow_add]
      congr 1
      omega
    have hAlow : 2 ^ (M - 1) ≤ A := by
      rw [hA, Nat.le_div_iff_mul_le hpos, ← hsplit]
      exact hlow
    have hAhigh : A < 2 ^ M := by
      rw [hA, Nat.div_lt_iff_lt_mul hpos]
      calc n < 2 ^ Lb := hhigh
        _ = 2 ^ M * 2 ^ (Lb - M) := by
            rw [← pow_add]
            congr 1
            omega
    have h2M : (2 : ℕ) ^ M = 2 * 2 ^ (M - 1) := by
      rw [← pow_succ']
      congr 1
      omega
    have hksum : 2 ^ M + k = 2 * A + 1 := by
      rw [hk]
      omega
    set E : ℤ := (Lb : ℤ) - 1 - M with hE
    have hEpos : (0 : ℚ) < (2 : ℚ) ^ E := by positivity
    have hE1 : (2 : ℚ) ^ ((Lb : ℤ) - 1) = (2 : ℚ) ^ (M : ℤ) * (2 : ℚ) ^ E := by
      rw [← zpow_add₀ h2ne]
      congr 1
      rw [hE]
      ring
    have hE2 : ((2 ^ (Lb - M) : ℕ) : ℚ) = 2 * (2 : ℚ) ^ E := by
      rw [Nat.cast_pow, show ((2 : ℕ) : ℚ) = (2 : ℚ) by norm_num,
        ← zpow_natCast (2 : ℚ) (Lb - M)]
      rw [show (2 : ℚ) * 2 ^ E = 2 ^ (1 : ℤ) * 2 ^ E by norm_num]
      rw [← zpow_add₀ h2ne]
      congr 1
      omega
    have h2Mq : ((2 ^ M : ℕ) : ℚ) = (2 : ℚ) ^ (M : ℤ) := by
      rw [Nat.cast_pow, show ((2 : ℕ) : ℚ) = (2 : ℚ) by norm_num, ← zpow_natCast]
    have hinner : (1 + (k : ℚ) * 2 ^ (-(M : ℤ))) * 2 ^ ((Lb : ℤ) - 1)
        = (2 * (A : ℚ) + 1) * 2 ^ E := by
      have hkE : (k : ℚ) * 2 ^ (-(M : ℤ)) * 2 ^ ((Lb : ℤ) - 1) = (k : ℚ) * 2 ^ E := by
        rw [mul_assoc, ← zpow_add₀ h2ne]
        congr 2
        rw [hE]
        ring
      calc (1 + (k : ℚ) * 2 ^ (-(M : ℤ))) * 2 ^ ((Lb : ℤ) - 1)
          = 2 ^ ((Lb : ℤ) - 1) + (k : ℚ) * 2 ^ (-(M : ℤ)) * 2 ^ ((Lb : ℤ) - 1) := by ring
        _ = (2 : ℚ) ^ (M : ℤ) * 2 ^ E + (k : ℚ) * 2 ^ E := by rw [hkE, hE1]
        _ = (2 * (A : ℚ) + 1) * 2 ^ E := by
            have hcast := congrArg (fun x : ℕ => (x : ℚ)) hksum
            push_cast at hcast
            rw [← h2Mq]
            push_cast
            linear_combination (2 : ℚ) ^ E * hcast
    have hncast : (n : ℚ) = 2 * (A : ℚ) * 2 ^ E + (r : ℚ) := by
      have hq : ((2 ^ (Lb - M) : ℕ) : ℚ) * (A : ℚ) + (r : ℚ) = (n : ℚ) := by
        exact_mod_cast congrArg (fun x : ℕ => (x : ℚ)) hdm
      rw [hE2] at hq
      linear_combination -hq
    rw [hinner, hncast]
    have hrE : (r : ℚ) < 2 * (2 : ℚ) ^ E := by
      have : (r : ℚ) < ((2 ^ (Lb - M) : ℕ) : ℚ) := by exact_mod_cast hrlt
      rwa [hE2] at this
    have hr0 : (0 : ℚ) ≤ (r : ℚ) := by positivity
    rw [show 2 * (A : ℚ) * 2 ^ E + (r : ℚ) - (2 * (A : ℚ) + 1) * 2 ^ E
        = (r : ℚ) - 2 ^ E by ring]
    rw [abs_le]
    constructor <;> linarith

/-- The normal form of `back_to_decimal_from_bits`. -/

theorem back_to_decimal_eq (L : Layout) (orig : Dec) (enc : NormalEnc) :
    back_to_decimal_from_bits L orig enc =
      (pyEvalReconstruct (signFactor enc.sign) (parseBin enc.mantF) L.mantissa
          (parseBinInt enc.expF - biasOf L.exponent),
       |decVal (decSubCtx orig (decOfFloat
          (pyEvalReconstruct (signFactor enc.sign) (parseBin enc.mantF) L.mantissa
            (parseBinInt enc.expF - biasOf L.exponent))))|) := rfl

/-- Value of a `Dec` built from a signed integer coefficient. -/

theorem decVal_mk_int (c t : ℤ) :
    decVal ⟨decide (c < 0), c.natAbs, t⟩ = (c : ℚ) * 10 ^ t := by
  unfold decVal
  have habs : ((c.natAbs : ℕ) : ℚ) = |(c : ℚ)| := by
    rw [Int.cast_natAbs, Int.cast_abs]
  rcases lt_or_le c 0 with h | h
  · rw [decide_eq_true h]
    simp only [Bool.cond_true]
    rw [habs, abs_of_neg (by exact_mod_cast h : (c : ℚ) < 0)]
    ring
  · rw [decide_eq_false (not_lt.mpr h)]
    simp only [Bool.cond_false]
    rw [habs, abs_of_nonneg (by exact_mod_cast h : (0 : ℚ) ≤ (c : ℚ))]
    ring

/-- The working coefficient of the context subtraction carries the exact
value of the difference at the ideal exponent. -/

theorem decSubCoeff_val (a b : Dec) :
    ((decSubCoeff a b : ℤ) : ℚ) * 10 ^ (min a.e b.e) = decVal a - decVal b := by
  have h10 : (10 : ℚ) ≠ 0 := by norm_num
  have hterm : ∀ d : Dec, ∀ t : ℤ, t ≤ d.e →
      (((cond d.neg (-1) 1 : ℤ) * (d.c : ℤ) * 10 ^ (d.e - t).toNat : ℤ) : ℚ) * 10 ^ t
        = decVal d := by
    intro d t ht
    unfold decVal
    push_cast
    rw [mul_assoc, mul_assoc, ← zpow_natCast (10 : ℚ) (d.e - t).toNat,
      ← zpow_add₀ h10]
    rw [show ((d.e - t).toNat : ℤ) + t = d.e by omega]
    rcases hb : d.neg with _ | _ <;> simp [mul_assoc]
  unfold decSubCoeff
  push_cast
  rw [sub_mul]
  rw [show (((cond a.neg (-1) 1 : ℤ) : ℚ) * (a.c : ℚ) * (10 : ℚ) ^ (a.e - min a.e b.e).toNat)
      = (((cond a.neg (-1) 1 : ℤ) * (a.c : ℤ) * 10 ^ (a.e - min a.e b.e).toNat : ℤ) : ℚ) by
    push_cast; ring]
  rw [show (((cond b.neg (-1) 1 : ℤ) : ℚ) * (b.c : ℚ) * (10 : ℚ) ^ (b.e - min a.e b.e).toNat)
      = (((cond b.neg (-1) 1 : ℤ) * (b.c : ℤ) * 10 ^ (b.e - min a.e b.e).toNat : ℤ) : ℚ) by
    push_cast; ring]
  rw [hterm a (min a.e b.e) (min_le_left _ _), hterm b (min a.e b.e) (min_le_right _ _)]

/-- When the exact difference fits in 256 significant digits the context
subtraction is exact. -/

theorem decSubCtx_exact (a b : Dec)
    (h : numDigits (decSubCoeff a b).natAbs ≤ 256) :
    decVal (decSubCtx a b) = decVal a - decVal b := by
  unfold decSubCtx
  rw [if_pos h, decVal_mk_int, decSubCoeff_val]

/-- A rational equal to an integer over a power of two has a power of two as
its reduced denominator. -/

theorem den_pow_two_of_div (q : ℚ) (z : ℤ) (j : ℕ)
    (h : q = (z : ℚ) / (2 : ℚ) ^ j) : ∃ i : ℕ, q.den = 2 ^ i := by
  have h1 : ((z : ℚ) / ((2 : ℚ) ^ j)) = Rat.divInt z (2 ^ j) := by
    rw [Rat.divInt_eq_div]
    push_cast
    ring
  have h2 : ((Rat.divInt z (2 ^ j)).den : ℤ) ∣ (2 ^ j : ℤ) := Rat.den_dvd z (2 ^ j)
  have h3 : q.den ∣ 2 ^ j := by
    rw [h, h1]
    exact_mod_cast h2
  obtain ⟨i, _, hi⟩ := (Nat.dvd_prime_pow Nat.prime_two).mp h3
  exact ⟨i, hi⟩

/-- The exact reconstruction value is dyadic: its reduced denominator is a
power of two (so `decOfFloat` converts it exactly). -/

theorem reconstruct_den_pow (k M : ℕ) (e : ℤ) :
    ∃ i : ℕ, ((1 + (k : ℚ) * 2 ^ (-(M : ℤ))) * 2 ^ e).den = 2 ^ i := by
  have h2ne : (2 : ℚ) ≠ 0 := by norm_num
  have hval : (1 + (k : ℚ) * 2 ^ (-(M : ℤ))) * 2 ^ e
      = ((2 ^ M + k : ℕ) : ℚ) * 2 ^ (e - M) := by
    push_cast
    rw [show ((2 : ℚ) ^ M + (k : ℚ)) * 2 ^ (e - (M : ℤ))
        = 2 ^ (M : ℤ) * 2 ^ (e - (M : ℤ)) + (k : ℚ) * 2 ^ (e - (M : ℤ)) by
      rw [← zpow_natCast (2 : ℚ) M]; ring]
    rw [← zpow_add₀ h2ne, show (M : ℤ) + (e - (M : ℤ)) = e by ring]
    rw [show (e : ℤ) - (M : ℤ) = e + -(M : ℤ) by ring, zpow_add₀ h2ne]
    ring
  rcases le_or_lt 0 (e - M) with ht | ht
  · refine den_pow_two_of_div _ ((2 ^ M + k : ℕ) * 2 ^ (e - M).toNat : ℤ) 0 ?_
    rw [hval]
    push_cast
    rw [show ((2 : ℚ) ^ (e - (M : ℤ))) = (2 : ℚ) ^ ((e - (M : ℤ)).toNat : ℤ) by
      congr 1; omega]
    rw [zpow_natCast]
    norm_num
  · refine den_pow_two_of_div _ ((2 ^ M + k : ℕ) : ℤ) (-(e - M)).toNat ?_
    rw [hval]
    push_cast
    rw [eq_div_iff (by positivity : ((2 : ℚ) ^ (-(e - (M : ℤ))).toNat) ≠ 0)]
    rw [mul_assoc, ← zpow_natCast (2 : ℚ) (-(e - (M : ℤ))).toNat, ← zpow_add₀ h2ne]
    rw [show (e - (M : ℤ)) + ((-(e - (M : ℤ))).toNat : ℤ) = 0 by omega]
    norm_num

/-- `decOfFloat` is an exact conversion on dyadic rationals. -/

theorem decOfFloat_val (v : ℚ) (h : ∃ i : ℕ, v.den = 2 ^ i) :
    decVal (decOfFloat v) = v := by
  obtain ⟨i, hi⟩ := h
  unfold decOfFloat
  by_cases hv : v = 0
  · rw [if_pos hv, hv]
    unfold decVal
    norm_num
  · rw [if_neg hv]
    have hj : nlog2 v.den = i := by
      rw [hi, nlog2_eq, Nat.log_pow (by norm_num : 1 < 2)]
    rw [hj]
    unfold decVal
    have hnum : ((v.num.natAbs * 5 ^ i : ℕ) : ℚ) = |(v.num : ℚ)| * 5 ^ i := by
      push_cast
      rw [Int.cast_natAbs]
      push_cast
      ring
    rw [hnum]
    have hsplit : (cond (decide (v < 0)) (-1) 1 : ℚ) * (|(v.num : ℚ)| * 5 ^ i)
        = (v.num : ℚ) * 5 ^ i := by
      rcases lt_or_le v 0 with hneg | hpos
      · rw [decide_eq_true hneg]
        simp only [Bool.cond_true]
        have hnn : ¬ (0 ≤ v.num) := fun hx => absurd (Rat.num_nonneg.mp hx)
          (not_le.mpr hneg)
        have : (v.num : ℚ) < 0 := by exact_mod_cast not_le.mp hnn
        rw [abs_of_neg this]
        ring
      · rw [decide_eq_false (not_lt.mpr hpos)]
        simp only [Bool.cond_false]
        have : (0 : ℚ) ≤ (v.num : ℚ) := by
          exact_mod_cast Rat.num_nonneg.mpr hpos
        rw [abs_of_nonneg this]
        ring
    rw [hsplit]
    have hden : ((v.den : ℕ) : ℚ) = (2 : ℚ) ^ i := by
      rw [hi]
      push_cast
      ring
    have hdenne : ((v.den : ℕ) : ℚ) ≠ 0 := by
      rw [hden]
      positivity
    have hvnd : (v.num : ℚ) = v * (2 : ℚ) ^ i := by
      have h := Rat.num_div_den v
      rw [div_eq_iff hdenne] at h
      rw [h, hden]
    have h10 : ((10 : ℚ) ^ (i : ℕ)) ≠ 0 := by positivity
    rw [show (10 : ℚ) ^ (-(i : ℤ)) = ((10 : ℚ) ^ (i : ℕ))⁻¹ by
      rw [zpow_neg, zpow_natCast]]
    rw [mul_inv_eq_iff_eq_mul₀ h10]
    rw [hvnd, mul_assoc, ← mul_pow]
    norm_num

/-- `decOfFloat` on a nonzero natural number. -/

theorem decOfFloat_natCast (n : ℕ) (hn : n ≠ 0) :
    decOfFloat (n : ℚ) = ⟨false, n, 0⟩ := by
  unfold decOfFloat
  rw [if_neg (by exact_mod_cast hn)]
  rw [Rat.den_natCast, Rat.num_natCast]
  rw [show nlog2 1 = 0 from rfl]
  rw [decide_eq_false (not_lt.mpr (by positivity : (0 : ℚ) ≤ (n : ℚ)))]
  simp

/-- Master lemma for the decoder on the normal path, for layouts with at most
52 mantissa bits, exact scaling runs, and error subtractions whose exact
difference fits in the 256-significant-digit context (hypothesis `hsub`): the
float-evaluated reconstruction coincides with the exact formula, the error
field is the exact absolute difference, and the round-trip error is bounded by
one unit in the last mantissa place at the value's exponent. -/

theorem decode_normal_master (fuel : ℕ) (L : Layout) (d : Dec) (enc : NormalEnc)
    (hc : d.c ≠ 0) (hM1 : 1 ≤ L.mantissa) (hM : L.mantissa ≤ 52)
    (henc : encodeNormal fuel L d = some enc)
    (hexact : scaleExact fuel ⟨false, d.c, d.e⟩ = true)
    (hsub : numDigits (decSubCoeff d (decOfFloat
        (pyEvalReconstruct (signFactor enc.sign) (parseBin enc.mantF) L.mantissa
          (parseBinInt enc.expF - biasOf L.exponent)))).natAbs ≤ 256) :
    (back_to_decimal_from_bits L d enc).1
      = exactReconstruct (signFactor enc.sign) (parseBin enc.mantF) L.mantissa
          (parseBinInt enc.expF - biasOf L.exponent) ∧
    (back_to_decimal_from_bits L d enc).2
      = |decVal d - exactReconstruct (signFactor enc.sign) (parseBin enc.mantF) L.mantissa
          (parseBinInt enc.expF - biasOf L.exponent)| ∧
    (back_to_decimal_from_bits L d enc).2
      ≤ 2 ^ (parseBinInt enc.expF - biasOf L.exponent - L.mantissa) := by
  have h2ne : (2 : ℚ) ≠ 0 := by norm_num
  obtain ⟨s, d', hrun, hencEq⟩ := encodeNormal_some fuel L d enc henc
  obtain ⟨hint, hneg', hcne, _⟩ := scale_up_shape fuel _ 0 s d' hrun
  set n := (decToInt d').toNat with hndef
  have hdpos : 1 ≤ decToInt d' := decToInt_pos d' hneg' (hcne (by exact hc)) hint
  have hn1 : 1 ≤ n := by omega
  set qabs := decVal ⟨false, d.c, d.e⟩ with hqabs
  have hqpos : 0 < qabs := by
    rw [hqabs]
    unfold decVal
    simp only [Bool.cond_false, one_mul]
    have h1 : (0 : ℚ) < ((d.c : ℕ) : ℚ) := by
      have : 0 < d.c := by omega
      exact_mod_cast this
    positivity
  have hval := scale_up_exact_val fuel _ 0 s d' hrun hexact
  have hvq : ((decToInt d' : ℤ) : ℚ) = qabs * 2 ^ s := by
    rw [decToInt_eq d' hint, hval]
    norm_num
  have hnq : (n : ℚ) = qabs * 2 ^ s := by
    rw [hndef]
    rw [show (((decToInt d').toNat : ℕ) : ℚ) = ((decToInt d' : ℤ) : ℚ) by
      exact_mod_cast congrArg (fun z : ℤ => (z : ℚ)) (Int.toNat_of_nonneg (by omega))]
    exact hvq
  set Lb := (to_binary n).length with hLbdef
  have hexpF : parseBinInt enc.expF = (Lb : ℤ) - 1 + biasOf L.exponent - s := by
    rw [hencEq]
    exact parse_render_id _ _
  have hestar : parseBinInt enc.expF - biasOf L.exponent = (Lb : ℤ) - 1 - s := by
    rw [hexpF]
    ring
  have hmantF : enc.mantF = find_mantissa (to_binary n) L.mantissa := by
    rw [hencEq]
  have hklt : parseBin enc.mantF < 2 ^ L.mantissa := by
    rw [hmantF]
    have := parseBin_lt (find_mantissa (to_binary n) L.mantissa)
    rwa [find_mantissa_length n L.mantissa hn1 hM1] at this
  set k := parseBin enc.mantF with hkdef
  -- the common exact bound, independent of sign
  have hbound : |qabs - (1 + (k : ℚ) * 2 ^ (-(L.mantissa : ℤ))) * 2 ^ ((Lb : ℤ) - 1 - s)|
      ≤ 2 ^ ((Lb : ℤ) - 1 - s - L.mantissa) := by
    have hcb := core_bound n L.mantissa hn1 hM1
    rw [← hLbdef] at hcb
    rw [← hmantF] at hcb
    have hsplit1 : (2 : ℚ) ^ ((Lb : ℤ) - 1 - s) = 2 ^ ((Lb : ℤ) - 1) * 2 ^ (-(s : ℤ)) := by
      rw [sub_eq_add_neg ((Lb : ℤ) - 1) (s : ℤ), zpow_add₀ h2ne]
    have hsplit2 : (2 : ℚ) ^ ((Lb : ℤ) - 1 - s - L.mantissa)
        = 2 ^ ((Lb : ℤ) - 1 - L.mantissa) * 2 ^ (-(s : ℤ)) := by
      rw [← zpow_add₀ h2ne]
      congr 1
      ring
    have hqn : qabs = (n : ℚ) * 2 ^ (-(s : ℤ)) := by
      rw [hnq, mul_assoc, ← zpow_natCast (2 : ℚ) s, ← zpow_add₀ h2ne]
      norm_num
    have hspos : (0 : ℚ) < 2 ^ (-(s : ℤ)) := by positivity
    rw [hqn, hsplit1, hsplit2]
    rw [show (n : ℚ) * 2 ^ (-(s : ℤ))
        - (1 + (k : ℚ) * 2 ^ (-(L.mantissa : ℤ))) * (2 ^ ((Lb : ℤ) - 1) * 2 ^ (-(s : ℤ)))
        = ((n : ℚ) - (1 + (k : ℚ) * 2 ^ (-(L.mantissa : ℤ))) * 2 ^ ((Lb : ℤ) - 1))
            * 2 ^ (-(s : ℤ)) by ring]
    rw [abs_mul, abs_of_pos hspos]
    exact mul_le_mul_of_nonneg_right hcb hspos.le
  have hev := pyEval_exact k L.mantissa (parseBinInt enc.expF - biasOf L.exponent) hM hklt
  have hsign : enc.sign = find_sign d := by rw [hencEq]
  rw [back_to_decimal_eq]
  by_cases hdneg : d.neg = true
  · -- negative input: sign '1', factor -1
    have hsf : signFactor enc.sign = -1 := by
      rw [hsign]
      unfold find_sign decNegative
      rw [hdneg]
      simp [hc, signFactor]
    have horig : decVal d = -qabs := by
      rw [hqabs]
      unfold decVal
      rw [hdneg]
      simp only [Bool.cond_true, Bool.cond_false]
      ring
    have hVeq : pyEvalReconstruct (signFactor enc.sign) (parseBin enc.mantF) L.mantissa
        (parseBinInt enc.expF - biasOf L.exponent)
        = -((1 + (k : ℚ) * 2 ^ (-(L.mantissa : ℤ)))
            * 2 ^ (parseBinInt enc.expF - biasOf L.exponent)) := by
      rw [hsf, ← hkdef]
      exact hev.2
    have hdy : ∃ i : ℕ, (pyEvalReconstruct (signFactor enc.sign) (parseBin enc.mantF)
        L.mantissa (parseBinInt enc.expF - biasOf L.exponent)).den = 2 ^ i := by
      rw [hVeq, Rat.neg_den]
      exact reconstruct_den_pow k L.mantissa _
    have hsubex : decVal (decSubCtx d (decOfFloat (pyEvalReconstruct (signFactor enc.sign)
        (parseBin enc.mantF) L.mantissa (parseBinInt enc.expF - biasOf L.exponent))))
        = decVal d - pyEvalReconstruct (signFactor enc.sign) (parseBin enc.mantF)
            L.mantissa (parseBinInt enc.expF - biasOf L.exponent) := by
      rw [decSubCtx_exact d _ hsub, decOfFloat_val _ hdy]
    rw [hsubex, hsf, ← hkdef, hev.2, horig, hestar]
    refine ⟨?_, ?_, ?_⟩
    · unfold exactReconstruct
      push_cast
      ring
    · unfold exactReconstruct
      push_cast
      ring_nf
    · rw [show -qabs - -((1 + (k : ℚ) * 2 ^ (-(L.mantissa : ℤ))) * 2 ^ ((Lb : ℤ) - 1 - s))
          = -(qabs - (1 + (k : ℚ) * 2 ^ (-(L.mantissa : ℤ))) * 2 ^ ((Lb : ℤ) - 1 - s)) by ring]
      rw [abs_neg]
      exact hbound
  · -- nonnegative input: sign '0', factor 1
    have hdneg' : d.neg = false := by
      cases h : d.neg
      · rfl
      · exact absurd h hdneg
    have hsf : signFactor enc.sign = 1 := by
      rw [hsign]
      unfold find_sign decNegative
      rw [hdneg']
      simp [signFactor]
    have horig : decVal d = qabs := by
      rw [hqabs]
      unfold decVal
      rw [hdneg']
    have hVeq : pyEvalReconstruct (signFactor enc.sign) (parseBin enc.mantF) L.mantissa
        (parseBinInt enc.expF - biasOf L.exponent)
        = (1 + (k : ℚ) * 2 ^ (-(L.mantissa : ℤ)))
            * 2 ^ (parseBinInt enc.expF - biasOf L.exponent) := by
      rw [hsf, ← hkdef]
      exact hev.1
    have hdy : ∃ i : ℕ, (pyEvalReconstruct (signFactor enc.sign) (parseBin enc.mantF)
        L.mantissa (parseBinInt enc.expF - biasOf L.exponent)).den = 2 ^ i := by
      rw [hVeq]
      exact reconstruct_den_pow k L.mantissa _
    have hsubex : decVal (decSubCtx d (decOfFloat (pyEvalReconstruct (signFactor enc.sign)
        (parseBin enc.mantF) L.mantissa (parseBinInt enc.expF - biasOf L.exponent))))
        = decVal d - pyEvalReconstruct (signFactor enc.sign) (parseBin enc.mantF)
            L.mantissa (parseBinInt enc.expF - biasOf L.exponent) := by
      rw [decSubCtx_exact d _ hsub, decOfFloat_val _ hdy]
    rw [hsubex, hsf, ← hkdef, hev.1, horig, hestar]
    refine ⟨?_, ?_, ?_⟩
    · unfold exactReconstruct
      push_cast
      ring
    · unfold exactReconstruct
      push_cast
      ring_nf
    · exact hbound

theorem quadInput_val : decVal quadInput = 1 + (2 : ℚ) ^ (-60 : ℤ) := by
  unfold decVal quadInput
  push_cast
  norm_num

/-- Evaluation of the decoder on the quadruple-precision encoding of
1 + 2^-60: the 53-bit float arithmetic collapses 1 + 2^-60 to 1, so the
reported value is 1 and the reported error is 2^-60 (the error subtraction is
exact here: its coefficient 5^60 has only 42 digits). -/

theorem quad_decode_eval :
    back_to_decimal_from_bits quadLayout quadInput (encOf 100 quadLayout quadInput)
      = (1, (2 : ℚ) ^ (-60 : ℤ)) := by
  have h2ne : (2 : ℚ) ≠ 0 := by norm_num
  have hsign : (encOf 100 quadLayout quadInput).sign = '0' := by decide
  have hmant : parseBin (encOf 100 quadLayout quadInput).mantF = 2 ^ 52 := by decide
  have hexp : parseBinInt (encOf 100 quadLayout quadInput).expF = 16383 := by decide
  rw [back_to_decimal_eq, hsign, hmant, hexp]
  rw [show signFactor '0' = 1 from rfl]
  rw [show quadLayout.mantissa = 112 from rfl]
  rw [show (16383 : ℤ) - (biasOf quadLayout.exponent : ℕ) = 0 by norm_num [biasOf, quadLayout]]
  have hbval : ((2 ^ 52 : ℕ) : ℚ) * 2 ^ (-(112 : ℤ)) = 2 ^ (-60 : ℤ) := by
    rw [Nat.cast_pow, show ((2 : ℕ) : ℚ) = (2 : ℚ) by norm_num,
      ← zpow_natCast (2 : ℚ) 52, ← zpow_add₀ h2ne]
    norm_num
  have hv : pyEvalReconstruct 1 (2 ^ 52) 112 0 = 1 := by
    rw [pyEvalReconstruct_eq]
    rw [show -((112 : ℕ) : ℤ) = (-112 : ℤ) by norm_num]
    have ha : fl ((2 : ℚ) ^ (-(112 : ℤ))) = (2 : ℚ) ^ (-(112 : ℤ)) := by
      have h := fl_nat_mul_zpow 1 (-(112 : ℤ)) (by norm_num)
      rw [Nat.cast_one, one_mul] at h
      exact h
    have hm : fl (((2 ^ 52 : ℕ) : ℚ)) = ((2 ^ 52 : ℕ) : ℚ) := by
      have h := fl_nat_mul_zpow (2 ^ 52) 0 (by norm_num)
      rw [zpow_zero, mul_one] at h
      exact h
    have hb : fl (((2 ^ 52 : ℕ) : ℚ) * 2 ^ (-(112 : ℤ)))
        = ((2 ^ 52 : ℕ) : ℚ) * 2 ^ (-(112 : ℤ)) := by
      rw [hbval]
      have h := fl_nat_mul_zpow 1 (-(60 : ℤ)) (by norm_num)
      rw [Nat.cast_one, one_mul] at h
      exact h
    rw [hm, ha, hb, hbval]
    have hq : (0 : ℚ) < 1 + (2 : ℚ) ^ (-60 : ℤ) := by positivity
    have hc1 : fl (1 + (2 : ℚ) ^ (-60 : ℤ)) = 1 := by
      have hfloor : floorLog2 (1 + (2 : ℚ) ^ (-60 : ℤ)) = 0 :=
        floorLog2_unique _ 0 hq (by norm_num) (by norm_num)
      unfold fl
      rw [if_neg hq.ne', if_neg (not_lt.mpr hq.le), flPos_eq, hfloor]
      rw [show (52 : ℤ) - 0 = 52 by ring]
      have harg : (1 + (2 : ℚ) ^ (-60 : ℤ)) * 2 ^ (52 : ℤ) = 2 ^ (52 : ℤ) + 2 ^ (-8 : ℤ) := by
        rw [add_mul, one_mul, ← zpow_add₀ h2ne]
        norm_num
      rw [harg]
      have hrhe : rheInt ((2 : ℚ) ^ (52 : ℤ) + 2 ^ (-8 : ℤ)) = 2 ^ 52 := by
        apply rheInt_round_down (2 ^ 52 : ℤ)
        · push_cast
          norm_num
        · push_cast
          norm_num
      rw [hrhe]
      rw [show ((2 ^ 52 : ℤ) : ℚ) = (2 : ℚ) ^ (52 : ℤ) by push_cast; norm_num]
      rw [← zpow_add₀ h2ne]
      norm_num
    rw [hc1]
    have hfl1 : fl 1 = 1 := by
      have h := fl_nat_mul_zpow 1 0 (by norm_num)
      rw [Nat.cast_one, zpow_zero, mul_one] at h
      exact h
    rw [show ((1 : ℤ) : ℚ) * 1 = 1 by norm_num, hfl1,
      show (1 : ℚ) * 2 ^ (0 : ℤ) = 1 by norm_num, hfl1]
  rw [hv]
  have hdf : decOfFloat (1 : ℚ) = ⟨false, 1, 0⟩ := by
    rw [show (1 : ℚ) = ((1 : ℕ) : ℚ) by norm_num]
    exact decOfFloat_natCast 1 (by norm_num)
  rw [hdf]
  rw [(by decide : decSubCtx quadInput ⟨false, 1, 0⟩ = (⟨false, 5 ^ 60, -60⟩ : Dec))]
  have hval : decVal (⟨false, 5 ^ 60, -60⟩ : Dec) = (2 : ℚ) ^ (-60 : ℤ) := by
    unfold decVal
    push_cast
    norm_num
  rw [hval, abs_of_pos (by positivity : (0 : ℚ) < (2 : ℚ) ^ (-60 : ℤ))]

/-- Evaluation of the decoder on the single-precision encoding of the integer
13: every step is exact (13 is a 4-bit integer, the float evaluation is exact,
and the error subtraction 13 - 13 = 0 fits the context), so the reported value
is 13 and the reported error is 0. -/

theorem single13_eval :
    back_to_decimal_from_bits ⟨8, 23⟩ ⟨false, 13, 0⟩ (encOf 10 ⟨8, 23⟩ ⟨false, 13, 0⟩)
      = (13, 0) := by
  have hsign : (encOf 10 ⟨8, 23⟩ ⟨false, 13, 0⟩).sign = '0' := by decide
  have hmant : parseBin (encOf 10 ⟨8, 23⟩ ⟨false, 13, 0⟩).mantF = 5242880 := by decide
  have hexp : parseBinInt (encOf 10 ⟨8, 23⟩ ⟨false, 13, 0⟩).expF = 130 := by decide
  rw [back_to_decimal_eq, hsign, hmant, hexp]
  rw [show signFactor '0' = 1 from rfl]
  rw [show (⟨8, 23⟩ : Layout).mantissa = 23 from rfl]
  rw [show (130 : ℤ) - (biasOf (⟨8, 23⟩ : Layout).exponent : ℕ) = 3 by
    norm_num [biasOf]]
  have hv : pyEvalReconstruct 1 5242880 23 3 = 13 := by
    rw [(pyEval_exact 5242880 23 3 (by norm_num) (by norm_num)).1]
    rw [show -((23 : ℕ) : ℤ) = (-23 : ℤ) by norm_num]
    norm_num
  rw [hv]
  have hdf : decOfFloat (13 : ℚ) = ⟨false, 13, 0⟩ := by
    rw [show (13 : ℚ) = ((13 : ℕ) : ℚ) by norm_num]
    exact decOfFloat_natCast 13 (by norm_num)
  rw [hdf]
  rw [(by decide : decSubCtx ⟨false, 13, 0⟩ ⟨false, 13, 0⟩ = (⟨false, 0, 0⟩ : Dec))]
  have hz : decVal (⟨false, 0, 0⟩ : Dec) = 0 := by
    unfold decVal
    norm_num
  rw [hz, abs_zero]

/-- On the single-precision encoding of 13 the error subtraction stays within
the context precision: its working coefficient is 0. -/

theorem single13_sub_fits :
    numDigits (decSubCoeff ⟨false, 13, 0⟩ (decOfFloat
      (back_to_decimal_from_bits ⟨8, 23⟩ ⟨false, 13, 0⟩
        (encOf 10 ⟨8, 23⟩ ⟨false, 13, 0⟩)).1)).natAbs ≤ 256 := by
  rw [show (back_to_decimal_from_bits ⟨8, 23⟩ ⟨false, 13, 0⟩
      (encOf 10 ⟨8, 23⟩ ⟨false, 13, 0⟩)).1 = 13 by rw [single13_eval]]
  rw [show (13 : ℚ) = ((13 : ℕ) : ℚ) by norm_num, decOfFloat_natCast 13 (by norm_num)]
  decide

/-- Faithfulness of the modeled error subtraction: for the integer input 2^903
at the double layout the float reconstruction is exact (2^903 + 2^851, a
53-bit integer), but the exact difference 2^851 has 257 significant digits, so
the 256-digit context subtraction rounds it half-even up to 2^851 + 2 — and
the reported error exceeds the exact-arithmetic bound
2^(unbiased_exponent - mantissa_bits) = 2^851. -/

theorem double_pow903_error :
    (back_to_decimal_from_bits ⟨11, 52⟩ ⟨false, 2 ^ 903, 0⟩
        (encOf 1 ⟨11, 52⟩ ⟨false, 2 ^ 903, 0⟩)).2 = (2 : ℚ) ^ 851 + 2 ∧
    ¬((back_to_decimal_from_bits ⟨11, 52⟩ ⟨false, 2 ^ 903, 0⟩
        (encOf 1 ⟨11, 52⟩ ⟨false, 2 ^ 903, 0⟩)).2
      ≤ 2 ^ (parseBinInt (encOf 1 ⟨11, 52⟩ ⟨false, 2 ^ 903, 0⟩).expF
          - biasOf 11 - 52)) := by
  have h2ne : (2 : ℚ) ≠ 0 := by norm_num
  have hencOf : encOf 1 ⟨11, 52⟩ ⟨false, 2 ^ 903, 0⟩
      = { sign := '0'
        , expF := find_exponent (to_binary (2 ^ 903)).length 0 (biasOf 11) 11
        , mantF := find_mantissa (to_binary (2 ^ 903)) 52
        , scale := 0
        , intVal := 2 ^ 903 } := rfl
  have hLb : (to_binary (2 ^ 903)).length = 904 := by
    rw [to_binary_length _ (Nat.one_le_pow 903 2 (by norm_num)),
      Nat.log_pow (by norm_num : 1 < 2)]
  have hsign : (encOf 1 ⟨11, 52⟩ ⟨false, 2 ^ 903, 0⟩).sign = '0' := by rw [hencOf]
  have hmant : parseBin (encOf 1 ⟨11, 52⟩ ⟨false, 2 ^ 903, 0⟩).mantF = 1 := by
    have h1 : (encOf 1 ⟨11, 52⟩ ⟨false, 2 ^ 903, 0⟩).mantF
        = find_mantissa (to_binary (2 ^ 903)) 52 := by rw [hencOf]
    rw [h1, find_mantissa_trunc (2 ^ 903) 52 (Nat.one_le_pow 903 2 (by norm_num))
      (by norm_num) (by rw [hLb]; norm_num)]
    rw [hLb]
    rw [show (904 : ℕ) - 52 = 852 by norm_num]
    rw [Nat.pow_div (by norm_num : 852 ≤ 903) (by norm_num : 0 < 2)]
    norm_num
  have hexp : parseBinInt (encOf 1 ⟨11, 52⟩ ⟨false, 2 ^ 903, 0⟩).expF = 1926 := by
    have h1 : (encOf 1 ⟨11, 52⟩ ⟨false, 2 ^ 903, 0⟩).expF
        = find_exponent (to_binary (2 ^ 903)).length 0 (biasOf 11) 11 := by rw [hencOf]
    rw [h1]
    unfold find_exponent
    rw [parse_render_id, hLb]
    norm_num [biasOf]
  rw [back_to_decimal_eq, hsign, hmant, hexp]
  rw [show signFactor '0' = 1 from rfl]
  rw [show (⟨11, 52⟩ : Layout).mantissa = 52 from rfl]
  rw [show (1926 : ℤ) - (biasOf (⟨11, 52⟩ : Layout).exponent : ℕ) = 903 by
    norm_num [biasOf]]
  have hv : pyEvalReconstruct 1 1 52 903 = (((2 ^ 52 + 1) * 2 ^ 851 : ℕ) : ℚ) := by
    rw [(pyEval_exact 1 52 903 (by norm_num) (by norm_num)).1]
    rw [show -((52 : ℕ) : ℤ) = (-52 : ℤ) by norm_num]
    push_cast
    norm_num
  rw [hv]
  rw [decOfFloat_natCast ((2 ^ 52 + 1) * 2 ^ 851) (by norm_num)]
  rw [(by decide : decSubCtx ⟨false, 2 ^ 903, 0⟩ ⟨false, (2 ^ 52 + 1) * 2 ^ 851, 0⟩
      = (⟨true, (2 ^ 851 - 8) / 10 + 1, 1⟩ : Dec))]
  have hn : ((2 ^ 851 - 8) / 10 + 1 : ℕ) * 10 = 2 ^ 851 + 2 := by decide
  have hval : |decVal (⟨true, (2 ^ 851 - 8) / 10 + 1, 1⟩ : Dec)| = (2 : ℚ) ^ 851 + 2 := by
    unfold decVal
    simp only [Bool.cond_true]
    rw [show (-1 : ℚ) * ((((2 ^ 851 - 8) / 10 + 1 : ℕ)) : ℚ) * 10 ^ (1 : ℤ)
        = -(((((2 ^ 851 - 8) / 10 + 1) * 10 : ℕ)) : ℚ) by push_cast; ring]
    rw [abs_neg, abs_of_nonneg (by positivity)]
    rw [hn]
    push_cast
    ring
  rw [hval]
  refine ⟨rfl, ?_⟩
  rw [show (903 : ℤ) - 52 = 851 by norm_num]
  show ¬((2 : ℚ) ^ 851 + 2 ≤ (2 : ℚ) ^ (851 : ℤ))
  rw [show (2 : ℚ) ^ (851 : ℤ) = (2 : ℚ) ^ (851 : ℕ) by
    rw [← zpow_natCast (2 : ℚ) 851]; norm_num]
  intro hle
  linarith

/-- C1 counterexample: at quadruple precision (112 mantissa bits) the input
1 + 2^-60 encodes with unbiased exponent 0, but the reported round-trip error
is 2^-60, far above the claimed bound 2^(0 - 112): the decoder evaluates the
reconstruction in 53-bit binary floating point, which collapses 1 + 2^-60
to 1. -/

theorem C1_counterexample :
    back_to_decimal_from_bits quadLayout quadInput (encOf 100 quadLayout quadInput)
      = (1, (2 : ℚ) ^ (-60 : ℤ)) ∧
    parseBinInt (encOf 100 quadLayout quadInput).expF - biasOf quadLayout.exponent = 0 ∧
    ¬((2 : ℚ) ^ (-60 : ℤ) ≤ 2 ^ ((0 : ℤ) - 112)) := by
  refine ⟨quad_decode_eval, by decide, ?_⟩
  norm_num

/-- C1 (amended): for layouts with at most 52 mantissa bits, on inputs whose
scaling loop runs without precision loss, whose unbiased exponent lies in the
binary64 normal range (where the model's float arithmetic is faithful and
exact), and whose error subtraction stays within the 256-significant-digit
context precision, the reported round-trip error is at most
2^(unbiased_exponent - mantissa_bits), in both the padding and the sticky-bit
truncation cases. -/

theorem C1_roundtrip_bound (fuel : ℕ) (L : Layout) (d : Dec) (enc : NormalEnc)
    (hc : d.c ≠ 0) (hM1 : 1 ≤ L.mantissa) (hM : L.mantissa ≤ 52)
    (henc : encodeNormal fuel L d = some enc)
    (hexact : scaleExact fuel ⟨false, d.c, d.e⟩ = true)
    (hsub : numDigits (decSubCoeff d (decOfFloat
        (back_to_decimal_from_bits L d enc).1)).natAbs ≤ 256)
    (hlo : -1022 ≤ parseBinInt enc.expF - biasOf L.exponent)
    (hhi : parseBinInt enc.expF - biasOf L.exponent ≤ 1023) :
    (back_to_decimal_from_bits L d enc).2
      ≤ 2 ^ (parseBinInt enc.expF - biasOf L.exponent - L.mantissa) :=
  (decode_normal_master fuel L d enc hc hM1 hM henc hexact hsub).2.2

/-- C1 witness: the bound instantiated on the integer 13 at single precision. -/

theorem C1_witness :
    (back_to_decimal_from_bits ⟨8, 23⟩ ⟨false, 13, 0⟩
        (encOf 10 ⟨8, 23⟩ ⟨false, 13, 0⟩)).2
      ≤ 2 ^ (parseBinInt (encOf 10 ⟨8, 23⟩ ⟨false, 13, 0⟩).expF - biasOf 8 - 23) :=
  C1_roundtrip_bound 10 ⟨8, 23⟩ ⟨false, 13, 0⟩ (encOf 10 ⟨8, 23⟩ ⟨false, 13, 0⟩)
    (by decide) (by decide) (by decide) (by decide) (by decide)
    single13_sub_fits (by decide) (by decide)

/-- C2 counterexample: at quadruple precision the decoder does not return the
exact reconstruction formula: for the encoding of 1 + 2^-60 the parsed fields
give the exact value 1 + 2^-60, but the float-evaluated converted_number
is 1. -/

theorem C2_counterexample :
    (back_to_decimal_from_bits quadLayout quadInput
        (encOf 100 quadLayout quadInput)).1 = 1 ∧
    exactReconstruct (signFactor (encOf 100 quadLayout quadInput).sign)
        (parseBin (encOf 100 quadLayout quadInput).mantF) quadLayout.mantissa
        (parseBinInt (encOf 100 quadLayout quadInput).expF - biasOf quadLayout.exponent)
      = 1 + (2 : ℚ) ^ (-60 : ℤ) ∧
    (1 : ℚ) ≠ 1 + (2 : ℚ) ^ (-60 : ℤ) := by
  refine ⟨?_, ?_, by norm_num⟩
  · rw [quad_decode_eval]
  · have hsign : (encOf 100 quadLayout quadInput).sign = '0' := by decide
    have hmant : parseBin (encOf 100 quadLayout quadInput).mantF = 2 ^ 52 := by decide
    have hexp : parseBinInt (encOf 100 quadLayout quadInput).expF = 16383 := by decide
    rw [hsign, hmant, hexp, show signFactor '0' = 1 from rfl,
      show quadLayout.mantissa = 112 from rfl,
      show (16383 : ℤ) - (biasOf quadLayout.exponent : ℕ) = 0 by norm_num [biasOf, quadLayout]]
    unfold exactReconstruct
    rw [Nat.cast_pow, show ((2 : ℕ) : ℚ) = (2 : ℚ) by norm_num,
      ← zpow_natCast ((2 : ℚ)) 52]
    rw [show -((112 : ℕ) : ℤ) = (-112 : ℤ) by norm_num]
    rw [← zpow_add₀ (by norm_num : (2 : ℚ) ≠ 0)]
    norm_num

/-- C2 (amended): the decoder computes the reconstruction with binary64 float
arithmetic and the error with 256-digit Decimal context subtraction, and only
in the regime where both are exact — layouts with at most 52 mantissa bits,
unbiased exponents in the binary64 normal range, and a difference whose
coefficient fits the 256-digit precision — does converted_number equal the
exact formula
(-1)^sign * (1 + mantissa_int * 2^-mantissa_bits) * 2^unbiased_exponent, with
the error field the exact absolute difference from the original. -/

theorem C2_reconstruction (fuel : ℕ) (L : Layout) (d : Dec) (enc : NormalEnc)
    (hc : d.c ≠ 0) (hM1 : 1 ≤ L.mantissa) (hM : L.mantissa ≤ 52)
    (henc : encodeNormal fuel L d = some enc)
    (hexact : scaleExact fuel ⟨false, d.c, d.e⟩ = true)
    (hsub : numDigits (decSubCoeff d (decOfFloat
        (back_to_decimal_from_bits L d enc).1)).natAbs ≤ 256)
    (hlo : -1022 ≤ parseBinInt enc.expF - biasOf L.exponent)
    (hhi : parseBinInt enc.expF - biasOf L.exponent ≤ 1023) :
    (back_to_decimal_from_bits L d enc).1
      = exactReconstruct (signFactor enc.sign) (parseBin enc.mantF) L.mantissa
          (parseBinInt enc.expF - biasOf L.exponent) ∧
    (back_to_decimal_from_bits L d enc).2
      = |decVal d - exactReconstruct (signFactor enc.sign) (parseBin enc.mantF) L.mantissa
          (parseBinInt enc.expF - biasOf L.exponent)| :=
  ⟨(decode_normal_master fuel L d enc hc hM1 hM henc hexact hsub).1,
   (decode_normal_master fuel L d enc hc hM1 hM henc hexact hsub).2.1⟩

/-- C2 witness: the reconstruction equality instantiated on the integer 13 at
single precision. -/

theorem C2_witness :
    (back_to_decimal_from_bits ⟨8, 23⟩ ⟨false, 13, 0⟩
        (encOf 10 ⟨8, 23⟩ ⟨false, 13, 0⟩)).1
      = exactReconstruct (signFactor (encOf 10 ⟨8, 23⟩ ⟨false, 13, 0⟩).sign)
          (parseBin (encOf 10 ⟨8, 23⟩ ⟨false, 13, 0⟩).mantF) 23
          (parseBinInt (encOf 10 ⟨8, 23⟩ ⟨false, 13, 0⟩).expF - biasOf 8) ∧
    (back_to_decimal_from_bits ⟨8, 23⟩ ⟨false, 13, 0⟩
        (encOf 10 ⟨8, 23⟩ ⟨false, 13, 0⟩)).2
      = |decVal ⟨false, 13, 0⟩
          - exactReconstruct (signFactor (encOf 10 ⟨8, 23⟩ ⟨false, 13, 0⟩).sign)
              (parseBin (encOf 10 ⟨8, 23⟩ ⟨false, 13, 0⟩).mantF) 23
              (parseBinInt (encOf 10 ⟨8, 23⟩ ⟨false, 13, 0⟩).expF - biasOf 8)| :=
  C2_reconstruction 10 ⟨8, 23⟩ ⟨false, 13, 0⟩ (encOf 10 ⟨8, 23⟩ ⟨false, 13, 0⟩)
    (by decide) (by decide) (by decide) (by decide) (by decide)
    single13_sub_fits (by decide) (by decide)
